import Mathlib

/-!
Verification of the SMT production-scheduling core
(`backend/scheduler.py`, `backend/optimizer.py`, `backend/time_scheduler.py`,
`backend/models.py`) against its natural-language specification.

Shallow embedding conventions:
* A calendar date is an `Int`: the number of days since a fixed Monday epoch,
  so `weekday d = d % 7` with `0 = Monday`, matching Python's
  `date.weekday()` (`5 = Saturday`, `6 = Sunday`).
* Python `float` quantities (hours, minutes) are modelled as `ℚ`.
* Python `None` becomes `Option.none`; SQLAlchemy rows become structures and
  queries become list filters, with list order standing for table order
  (`.first()` = `List.find?`).
* `while` loops whose termination is part of what is being verified are
  modelled with an explicit fuel parameter returning `Option`; `none` for
  every fuel means the Python loop never exits.
-/

namespace SMT

/-- Python's `date.weekday()`: day of week, `0 = Monday` .. `6 = Sunday`.
Dates are days since a Monday epoch, so this is the residue mod 7
(`Int.emod` is nonnegative for a positive modulus). -/
def weekday (d : Int) : Int := d % 7

/-- `scheduler.is_weekend`: Saturday (5) or Sunday (6). -/
def is_weekend (d : Int) : Bool := decide (5 ≤ weekday d)

/-- The `while is_weekend(current_date): current_date += direction` loop of
`scheduler.add_business_days`, with fuel.  At most two consecutive days are
weekend days, so any fuel `≥ 3` gives the loop's exact behaviour. -/
def skipWeekends (dir : Int) : Nat → Int → Int
  | 0, d => d
  | fuel + 1, d => if is_weekend d then skipWeekends dir fuel (d + dir) else d

/-- One iteration of the `for _ in range(full_days)` loop of
`scheduler.add_business_days`: move one day in `dir`, then skip weekends. -/
def bdStep (dir : Int) (d : Int) : Int := skipWeekends dir 7 (d + dir)

/-- The `for _ in range(full_days)` loop of `scheduler.add_business_days`. -/
def bdLoop (dir : Int) : Nat → Int → Int
  | 0, d => d
  | n + 1, d => bdLoop dir n (bdStep dir d)

/-- Python's `abs` on a rational. -/
def py_abs (q : ℚ) : ℚ := if q < 0 then -q else q

/-- Python's `math.ceil` on a rational: `⌈q⌉ = -⌊-q⌋`, written with flooring
integer division so that it evaluates by kernel reduction. -/
def math_ceil (q : ℚ) : Int := -((-q.num).fdiv (q.den : Int))

/-- `scheduler.add_business_days(start_date, days)`:
`direction = 1 if days >= 0 else -1`; `full_days = ceil(abs(days))` when
positive, else `0`; then `full_days` iterations of: move one calendar day in
the direction, then keep stepping while the result is a weekend. -/
def add_business_days (start_date : Int) (days : ℚ) : Int :=
  let direction : Int := if 0 ≤ days then 1 else -1
  let days_remaining := py_abs days
  let full_days : Nat := if 0 < days_remaining then (math_ceil days_remaining).toNat else 0
  bdLoop direction full_days start_date

/-- A row of `capacity_overrides` (`models.CapacityOverride`): inclusive date
range and a total-hours figure for each covered day. -/
structure CapacityOverride where
  line_id : Nat
  start_date : Int
  end_date : Int
  total_hours : ℚ
  deriving Repr, DecidableEq

/-- A row of `shift_breaks` (`models.ShiftBreak`); times are minutes past
midnight. -/
structure ShiftBreak where
  start_time : Nat
  end_time : Nat
  is_paid : Bool
  deriving Repr, DecidableEq

/-- A row of `shifts` (`models.Shift`); times are minutes past midnight and
`active_days` is the parsed comma-separated weekday list (1 = Monday ..
7 = Sunday).  `start_time`/`end_time` are `Option` to reflect the
`if shift.start_time and shift.end_time` null-guard in the source. -/
structure Shift where
  line_id : Nat
  start_time : Option Nat
  end_time : Option Nat
  active_days : List Nat
  is_active : Bool
  breaks : List ShiftBreak
  deriving Repr, DecidableEq

/-- A row of `smt_lines` (`models.SMTLine`), scheduling-relevant fields. -/
structure SMTLine where
  id : Nat
  name : String
  hours_per_day : ℚ
  is_active : Bool
  is_special_customer : Bool
  special_customer_name : Option String
  is_manual_only : Bool
  order_position : Int
  deriving Repr, DecidableEq

/-- `models.Priority`. -/
inductive Priority where
  | CRITICAL_MASS | OVERCLOCKED | FACTORY_DEFAULT | TRICKLE_CHARGE | POWER_DOWN
  deriving Repr, DecidableEq

/-- A row of `work_orders` (`models.WorkOrder`), scheduling-relevant fields.
`calculated_start_datetime` / `calculated_end_datetime` are modelled by their
date component (the only part the date-level scheduler and the optimizer
read; the optimizer writes them only to `None`). -/
structure WorkOrder where
  id : Nat
  customer : String
  priority : Priority
  is_locked : Bool
  is_manual_schedule : Bool
  is_complete : Bool
  cetec_ship_date : Option Int
  min_start_date : Option Int
  earliest_completion_date : Option Int
  scheduled_start_date : Option Int
  scheduled_end_date : Option Int
  promise_date_variance_days : Option Int
  time_minutes : ℚ
  setup_time_hours : ℚ
  calculated_start_datetime : Option Int
  calculated_end_datetime : Option Int
  trolley_count : Nat
  line_id : Option Nat
  line_position : Option Nat
  current_location : String
  deriving Repr, DecidableEq

/-- The persistent store as the scheduling core sees it, plus `today`
(the simulation origin `date.today()`). List order models table order. -/
structure Db where
  jobs : List WorkOrder
  lines : List SMTLine
  shifts : List Shift
  overrides : List CapacityOverride
  today : Int
  deriving Repr, DecidableEq

/-- The override lookup of `scheduler.get_capacity_for_date` (`.first()` on
the filtered `CapacityOverride` query). -/
def findOverride (db : Db) (line_id : Nat) (check_date : Int) : Option CapacityOverride :=
  db.overrides.find? fun o =>
    decide (o.line_id = line_id ∧ o.start_date ≤ check_date ∧ check_date ≤ o.end_date)

/-- The shift query of `scheduler.get_capacity_for_date`: all shift rows of
the line (active or not; the loop itself skips inactive ones). -/
def shiftsOf (db : Db) (line_id : Nat) : List Shift :=
  db.shifts.filter fun s => s.line_id == line_id

/-- `day_number` of `scheduler.get_capacity_for_date`: weekday converted to
`1 = Monday .. 7 = Sunday`. -/
def day_number (check_date : Int) : Int :=
  if weekday check_date = 6 then 7 else weekday check_date + 1

/-- Hours contributed by one shift row in `scheduler.get_capacity_for_date`:
skip if inactive, no active days, or the weekday is not active; otherwise
(when both times are present) shift duration in hours, `+24` when negative
(overnight), minus the durations of unpaid breaks. -/
def shiftDayHours (check_date : Int) (s : Shift) : ℚ :=
  if ¬s.is_active ∨ s.active_days = [] then 0
  else if ¬(day_number check_date ∈ s.active_days.map (fun n => (n : Int))) then 0
  else
    match s.start_time, s.end_time with
    | some st, some et =>
        let hours : ℚ := ((et : ℚ) - (st : ℚ)) / 60
        let hours := if hours < 0 then hours + 24 else hours
        hours - (s.breaks.map fun b =>
          if ¬b.is_paid then ((b.end_time : ℚ) - (b.start_time : ℚ)) / 60 else 0).sum
    | _, _ => 0

/-- `scheduler.get_capacity_for_date(session, line_id, check_date,
default_hours_per_day)`: override first; otherwise sum the active shifts on
that weekday; no shift rows at all, or a non-positive shift total, falls back
to the default. -/
def get_capacity_for_date (db : Db) (line_id : Nat) (check_date : Int)
    (default_hours_per_day : ℚ) : ℚ :=
  match findOverride db line_id check_date with
  | some o => o.total_hours
  | none =>
      let shifts := shiftsOf db line_id
      if shifts = [] then default_hours_per_day
      else
        let total_hours := (shifts.map (shiftDayHours check_date)).sum
        if 0 < total_hours then total_hours else default_hours_per_day

/-! ### Basic facts about weekends and `add_business_days` -/

theorem is_weekend_iff (d : Int) : is_weekend d = true ↔ 5 ≤ d % 7 := by
  simp [is_weekend, weekday]

theorem is_weekend_eq_false_iff (d : Int) : is_weekend d = false ↔ d % 7 < 5 := by
  simp [is_weekend, weekday]

theorem skipWeekends_eq_self (dir : Int) (f : Nat) (d : Int)
    (h : is_weekend d = false) : skipWeekends dir (f + 1) d = d := by
  simp [skipWeekends, h]

/-- The weekend-skipping loop, run with fuel 7 and a unit direction, always
lands on a weekday: at most two consecutive days are weekend days. -/
theorem skipWeekends7_not_weekend (dir : Int) (hdir : dir = 1 ∨ dir = -1)
    (d : Int) : is_weekend (skipWeekends dir 7 d) = false := by
  cases h0 : is_weekend d with
  | false => rw [skipWeekends_eq_self dir 6 d h0]; exact h0
  | true =>
      rw [show skipWeekends dir 7 d = skipWeekends dir 6 (d + dir) by
        simp [skipWeekends, h0]]
      cases h1 : is_weekend (d + dir) with
      | false => rw [skipWeekends_eq_self dir 5 _ h1]; exact h1
      | true =>
          rw [show skipWeekends dir 6 (d + dir) = skipWeekends dir 5 (d + dir + dir) by
            simp [skipWeekends, h1]]
          have h2 : is_weekend (d + dir + dir) = false := by
            rw [is_weekend_eq_false_iff]
            rw [is_weekend_iff] at h0 h1
            rcases hdir with rfl | rfl <;> omega
          rw [skipWeekends_eq_self dir 4 _ h2]; exact h2

theorem bdStep_not_weekend (dir : Int) (hdir : dir = 1 ∨ dir = -1) (d : Int) :
    is_weekend (bdStep dir d) = false :=
  skipWeekends7_not_weekend dir hdir (d + dir)

theorem bdLoop_not_weekend (dir : Int) (hdir : dir = 1 ∨ dir = -1) :
    ∀ (n : Nat) (d : Int), 1 ≤ n → is_weekend (bdLoop dir n d) = false := by
  intro n
  induction n with
  | zero => intro d h; omega
  | succ k ih =>
      intro d _
      cases k with
      | zero => exact bdStep_not_weekend dir hdir d
      | succ m => exact ih (bdStep dir d) (by omega)

theorem one_le_math_ceil (q : ℚ) (hq : 0 < q) : 1 ≤ math_ceil q := by
  have hnum : 0 < q.num := Rat.num_pos.mpr hq
  have hden : (0 : Int) < (q.den : Int) := by exact_mod_cast q.den_pos
  have : (-q.num).fdiv (q.den : Int) < 0 := Int.fdiv_neg' (by omega) hden
  unfold math_ceil
  omega

theorem py_abs_pos (q : ℚ) (hq : q ≠ 0) : 0 < py_abs q := by
  unfold py_abs
  rcases lt_trichotomy q 0 with h | h | h
  · rw [if_pos h]; linarith
  · exact absurd h hq
  · rw [if_neg (by linarith)]; exact h

/-- C6's true core, restricted to `n ≠ 0`: `add_business_days` lands on a
weekday whenever it takes at least one step. -/
theorem add_business_days_not_weekend (d : Int) (n : ℚ) (hn : n ≠ 0) :
    is_weekend (add_business_days d n) = false := by
  unfold add_business_days
  have habs : 0 < py_abs n := py_abs_pos n hn
  have hceil : 1 ≤ math_ceil (py_abs n) := one_le_math_ceil _ habs
  have hfull : 1 ≤ (math_ceil (py_abs n)).toNat := by omega
  have hdir : (if (0 : ℚ) ≤ n then (1 : Int) else -1) = 1 ∨
      (if (0 : ℚ) ≤ n then (1 : Int) else -1) = -1 := by
    split
    · exact Or.inl rfl
    · exact Or.inr rfl
  simp only [if_pos habs]
  exact bdLoop_not_weekend _ hdir _ d hfull

/-- C6 zero-step case: with `n = 0` the start date is returned unchanged. -/
theorem add_business_days_zero (d : Int) : add_business_days d 0 = d := by
  unfold add_business_days py_abs math_ceil
  norm_num [bdLoop]

/-! ### `models.WorkOrder` helper methods -/

/-- `WorkOrder.calculate_promise_date_variance`: days early/late versus the
Cetec promise date; `None` when either date is missing. -/
def calculate_promise_date_variance (wo : WorkOrder) : Option Int :=
  match wo.scheduled_end_date, wo.cetec_ship_date with
  | some e, some s => some (e - s)
  | _, _ => none

/-- `WorkOrder.is_at_risk`: earliest completion after the promise date;
`False` when either date is missing. -/
def is_at_risk (wo : WorkOrder) : Bool :=
  match wo.earliest_completion_date, wo.cetec_ship_date with
  | some c, some s => decide (s < c)
  | _, _ => false

/-- `WorkOrder.will_be_late`: scheduled end after the promise date; `False`
when either date is missing. -/
def will_be_late (wo : WorkOrder) : Bool :=
  match wo.scheduled_end_date, wo.cetec_ship_date with
  | some e, some s => decide (s < e)
  | _, _ => false

/-- `WorkOrder.get_priority_rank`: numeric rank, 1 = most urgent. The enum is
closed, so the `.get(..., 999)` default is unreachable. -/
def get_priority_rank (wo : WorkOrder) : Nat :=
  match wo.priority with
  | .CRITICAL_MASS => 1
  | .OVERCLOCKED => 2
  | .FACTORY_DEFAULT => 3
  | .TRICKLE_CHARGE => 4
  | .POWER_DOWN => 5

/-- `needle in hay` on character lists (Python's substring test). -/
def str_contains (needle : List Char) : List Char → Bool
  | [] => needle.isEmpty
  | c :: rest => needle.isPrefixOf (c :: rest) || str_contains needle rest

/-- `WorkOrder.is_mci_job`: the customer name (upper-cased) contains
`MIDCONTINENT`, `MCI` or `MID CONTINENT`. -/
def is_mci_job (wo : WorkOrder) : Bool :=
  let cu := wo.customer.toUpper.toList
  str_contains "MIDCONTINENT".toList cu || str_contains "MCI".toList cu ||
    str_contains "MID CONTINENT".toList cu

/-! ### Claims C6, C7, C10 -/

/-- A dedicated-to-nothing placeholder work order (used to build concrete
instances; every field explicitly inert). -/
def woDefault : WorkOrder :=
  { id := 0, customer := "", priority := .FACTORY_DEFAULT, is_locked := false
    is_manual_schedule := false, is_complete := false, cetec_ship_date := none
    min_start_date := none, earliest_completion_date := none
    scheduled_start_date := none, scheduled_end_date := none
    promise_date_variance_days := none, time_minutes := 0, setup_time_hours := 0
    calculated_start_datetime := none, calculated_end_datetime := none
    trolley_count := 0, line_id := none, line_position := none
    current_location := "" }

/-- C6, counterexample to the claim as stated: for `n = 0` the loop body
never runs, so a Saturday start date (day 5 of the Monday epoch) is returned
unchanged — `add_business_days` does return a weekend day. -/
theorem claim_C6_counterexample :
    add_business_days 5 0 = 5 ∧ is_weekend 5 = true := by
  constructor
  · with_unfolding_all decide
  · decide

/-- C6 (amended): for every start date and every nonzero (integer or
fractional, positive or negative) day count, `add_business_days` never
returns a Saturday or Sunday; for `n = 0` it returns the start date
unchanged, weekend or not. -/
theorem claim_C6_amended (d : Int) (n : ℚ) :
    (n ≠ 0 → is_weekend (add_business_days d n) = false) ∧
      add_business_days d 0 = d :=
  ⟨add_business_days_not_weekend d n, add_business_days_zero d⟩

/-- C6 witness: one concrete application of the amended theorem
(Friday + 1 business day = next Monday, a weekday). -/
theorem claim_C6_witness :
    is_weekend (add_business_days 4 1) = false :=
  (claim_C6_amended 4 1).1 (by norm_num)

/-- The claim's own wording of §4.1(b): hours contributed by one shift —
shift duration (cross-midnight adjusted) minus unpaid break durations. -/
def specShiftHours (s : Shift) : ℚ :=
  match s.start_time, s.end_time with
  | some st, some et =>
      let hours : ℚ := ((et : ℚ) - (st : ℚ)) / 60
      let hours := if hours < 0 then hours + 24 else hours
      hours - (s.breaks.map fun b =>
        if ¬b.is_paid then ((b.end_time : ℚ) - (b.start_time : ℚ)) / 60 else 0).sum
  | _, _ => 0

/-- The claim's shift-selection predicate: active shifts whose weekday set
includes the date. -/
def specShiftApplies (check_date : Int) (s : Shift) : Bool :=
  decide (s.is_active = true ∧ s.active_days ≠ [] ∧
    day_number check_date ∈ s.active_days.map (fun n => (n : Int)))

/-- The claim's shift-derived daily total: the sum, over active shifts whose
weekday set includes the date, of duration minus unpaid breaks. -/
def specShiftTotal (db : Db) (line_id : Nat) (check_date : Int) : ℚ :=
  (((shiftsOf db line_id).filter (specShiftApplies check_date)).map specShiftHours).sum

theorem shiftDayHours_eq_of_applies (d : Int) (s : Shift)
    (h : specShiftApplies d s = true) : shiftDayHours d s = specShiftHours s := by
  simp only [specShiftApplies, decide_eq_true_eq] at h
  obtain ⟨h1, h2, h3⟩ := h
  unfold shiftDayHours specShiftHours
  rw [if_neg (by push_neg; exact ⟨by simp [h1], h2⟩), if_neg (not_not_intro h3)]

theorem shiftDayHours_eq_zero_of_not_applies (d : Int) (s : Shift)
    (h : specShiftApplies d s = false) : shiftDayHours d s = 0 := by
  simp only [specShiftApplies, decide_eq_false_iff_not] at h
  unfold shiftDayHours
  by_cases h1 : s.is_active = true
  · by_cases h2 : s.active_days = []
    · rw [if_pos (Or.inr h2)]
    · have h3 : ¬(day_number d ∈ s.active_days.map (fun n => (n : Int))) :=
        fun hm => h ⟨h1, h2, hm⟩
      rw [if_neg (by push_neg; exact ⟨by simp [h1], h2⟩), if_pos h3]
  · rw [if_pos (Or.inl (by simpa using h1))]

theorem shiftSum_eq_specTotal (d : Int) (l : List Shift) :
    (l.map (shiftDayHours d)).sum =
      ((l.filter (specShiftApplies d)).map specShiftHours).sum := by
  induction l with
  | nil => rfl
  | cons s t ih =>
      cases h : specShiftApplies d s with
      | true =>
          simp only [List.map_cons, List.sum_cons, List.filter_cons, h, if_pos]
          rw [shiftDayHours_eq_of_applies d s h, ih]
      | false =>
          simp only [List.map_cons, List.sum_cons, List.filter_cons, h]
          rw [shiftDayHours_eq_zero_of_not_applies d s h, ih]
          simp

/-- C7 (confirmed): capacity precedence. (a) A covering override's
`total_hours` is returned regardless of shift configuration; (b) with no
override and no shift rows at all, the default; (c) with no override and some
shift rows, the claim's shift-derived sum when positive, otherwise the
default. -/
theorem claim_C7 (db : Db) (line_id : Nat) (check_date : Int) (default_hours : ℚ) :
    (∀ o, findOverride db line_id check_date = some o →
        get_capacity_for_date db line_id check_date default_hours = o.total_hours) ∧
    (findOverride db line_id check_date = none → shiftsOf db line_id = [] →
        get_capacity_for_date db line_id check_date default_hours = default_hours) ∧
    (findOverride db line_id check_date = none → shiftsOf db line_id ≠ [] →
        get_capacity_for_date db line_id check_date default_hours =
          if 0 < specShiftTotal db line_id check_date then
            specShiftTotal db line_id check_date
          else default_hours) := by
  refine ⟨fun o ho => ?_, fun hn he => ?_, fun hn he => ?_⟩
  · simp [get_capacity_for_date, ho]
  · simp [get_capacity_for_date, hn, he]
  · simp only [get_capacity_for_date, hn, if_neg he]
    rw [shiftSum_eq_specTotal]
    rfl

/-- C7 witness: two concrete applications — an override wins over a
configured shift, and a shift-free line falls back to the default. -/
theorem claim_C7_witness :
    get_capacity_for_date
      { jobs := [], lines := [], shifts := [⟨1, some 480, some 960, [1,2,3,4,5], true, []⟩],
        overrides := [⟨1, -2, 2, 5⟩], today := 0 } 1 0 8 = 5 ∧
    get_capacity_for_date
      { jobs := [], lines := [], shifts := [], overrides := [], today := 0 } 1 0 8 = 8 := by
  constructor
  · exact (claim_C7 _ 1 0 8).1 ⟨1, -2, 2, 5⟩ rfl
  · exact (claim_C7 _ 1 0 8).2.1 rfl rfl

/-- C10 (confirmed): jobs with incomplete data are classified as neither
late nor at risk, and their variance is `None`, without raising. -/
theorem claim_C10 (wo : WorkOrder) :
    ((wo.scheduled_end_date = none ∨ wo.cetec_ship_date = none) →
        calculate_promise_date_variance wo = none ∧ will_be_late wo = false) ∧
    ((wo.earliest_completion_date = none ∨ wo.cetec_ship_date = none) →
        is_at_risk wo = false) := by
  constructor
  · intro h
    unfold calculate_promise_date_variance will_be_late
    rcases hs : wo.scheduled_end_date with _ | e <;>
      rcases hc : wo.cetec_ship_date with _ | s <;> simp_all
  · intro h
    unfold is_at_risk
    rcases he : wo.earliest_completion_date with _ | c <;>
      rcases hc : wo.cetec_ship_date with _ | s <;> simp_all

/-- C10 witness: the placeholder job (all dates missing) is neither late nor
at risk and has no variance. -/
theorem claim_C10_witness :
    (calculate_promise_date_variance woDefault = none ∧
      will_be_late woDefault = false) ∧ is_at_risk woDefault = false :=
  ⟨(claim_C10 woDefault).1 (Or.inl rfl), (claim_C10 woDefault).2 (Or.inl rfl)⟩

/-! ### `time_scheduler.py`: clock-time arithmetic

Timestamps (`datetime`) are modelled by `DT`: a date (days since the Monday
epoch) plus hour/minute components and a rational seconds component (covering
Python's seconds and microseconds in one exact field). -/

structure DT where
  day : Int
  hour : Nat
  minute : Nat
  sec : ℚ
  deriving Repr, DecidableEq

/-- Seconds since midnight (`datetime.time()` as a number). -/
def timeOfDayQ (dt : DT) : ℚ := ((dt.hour * 60 + dt.minute : Nat) : ℚ) * 60 + dt.sec

/-- Seconds since the epoch; Python `datetime` comparison and subtraction are
comparison and subtraction of this number. -/
def toSecQ (dt : DT) : ℚ := (dt.day : ℚ) * 86400 + timeOfDayQ dt

/-- `datetime.combine(date, time)` for a time stored as minutes past
midnight. -/
def combine (day : Int) (m : Nat) : DT := ⟨day, m / 60, m % 60, 0⟩

/-- `⌊q⌋`, written with flooring integer division so that it evaluates by
kernel reduction. -/
def rat_floor (q : ℚ) : Int := q.num.fdiv (q.den : Int)

theorem rat_floor_eq_floor (q : ℚ) : rat_floor q = ⌊q⌋ := by
  rw [rat_floor, Int.fdiv_eq_ediv _ (by positivity), Rat.floor_def]

/-- Normalize an epoch-second count back into date/time components — the
arithmetic `datetime + timedelta` performs. -/
def ofSecQ (t : ℚ) : DT :=
  let day := rat_floor (t / 86400)
  let r := t - (day : ℚ) * 86400
  let h := (rat_floor (r / 3600)).toNat
  let r2 := r - (h : ℚ) * 3600
  let mnt := (rat_floor (r2 / 60)).toNat
  ⟨day, h, mnt, r2 - (mnt : ℚ) * 60⟩

/-- `dt + timedelta(minutes=q)`. -/
def addMinutesQ (dt : DT) (q : ℚ) : DT := ofSecQ (toSecQ dt + q * 60)

/-- Python's `round` (banker's rounding: nearest integer, halves to even). -/
def py_round (q : ℚ) : Int :=
  if q - rat_floor q < 1/2 then rat_floor q
  else if 1/2 < q - rat_floor q then rat_floor q + 1
  else if rat_floor q % 2 = 0 then rat_floor q else rat_floor q + 1

/-- `dt.replace(minute=0) + timedelta(hours=1)` (seconds are kept). -/
def addOneHour (dt : DT) : DT :=
  if dt.hour + 1 ≤ 23 then { dt with minute := 0, hour := dt.hour + 1 }
  else { dt with minute := 0, hour := dt.hour + 1 - 24, day := dt.day + 1 }

/-- `time_scheduler.round_to_nearest(dt, minutes)`: round the minute
component with Python `round`; a result of 60 or more becomes the next hour
(keeping seconds — the source zeroes seconds only in the other branch). -/
def round_to_nearest (dt : DT) (minutes : Nat) : DT :=
  let rounded_minutes : Int := py_round ((dt.minute : ℚ) / (minutes : ℚ)) * minutes
  if 60 ≤ rounded_minutes then addOneHour dt
  else { dt with minute := rounded_minutes.toNat, sec := 0 }

/-- `time_scheduler` reads the non-nullable shift time columns directly. -/
def shiftStartM (s : Shift) : Nat := s.start_time.getD 0

/-- End-of-shift time in minutes past midnight. -/
def shiftEndM (s : Shift) : Nat := s.end_time.getD 0

/-- `time_scheduler.is_during_break`. -/
def is_during_break (dt : DT) (breaks : List ShiftBreak) : Bool :=
  breaks.any fun br =>
    decide ((br.start_time : ℚ) * 60 ≤ timeOfDayQ dt ∧ timeOfDayQ dt < (br.end_time : ℚ) * 60)

/-- `time_scheduler.get_next_available_start(after_dt, shift, round_minutes)`:
round, clamp into shift bounds (next weekday when past shift end), jump out
of a break, round again. -/
def get_next_available_start (after_dt : DT) (shift : Shift) (round_minutes : Nat) : DT :=
  let next_start := round_to_nearest after_dt round_minutes
  let shift_start := combine next_start.day (shiftStartM shift)
  let shift_end := combine next_start.day (shiftEndM shift)
  let shift_end := if toSecQ shift_end ≤ toSecQ shift_start then
      { shift_end with day := shift_end.day + 1 } else shift_end
  let next_start := if toSecQ next_start < toSecQ shift_start then shift_start else next_start
  let next_start :=
    if toSecQ shift_end ≤ toSecQ next_start then
      combine (skipWeekends 1 7 (next_start.day + 1)) (shiftStartM shift)
    else next_start
  let next_start :=
    if shift.breaks ≠ [] ∧ is_during_break next_start shift.breaks then
      match shift.breaks.find? (fun br =>
          decide ((br.start_time : ℚ) * 60 ≤ timeOfDayQ next_start ∧
            timeOfDayQ next_start < (br.end_time : ℚ) * 60)) with
      | some br => combine next_start.day br.end_time
      | none => next_start
    else next_start
  round_to_nearest next_start round_minutes

/-- The `break_end` local of `add_work_time`'s break branch: the end of the
break the cursor sits in, pushed a day forward when not after the cursor. -/
def awtBreakEnd (current_dt : DT) (br : ShiftBreak) : DT :=
  if toSecQ (combine current_dt.day br.end_time) ≤ toSecQ current_dt then
    { combine current_dt.day br.end_time with day := current_dt.day + 1 }
  else combine current_dt.day br.end_time

/-- The `shift_end` local of `add_work_time`: same-day shift end, pushed a
day forward for overnight shifts (`end ≤ start`). -/
def awtShiftEnd (shift : Shift) (current_dt : DT) : DT :=
  if toSecQ (combine current_dt.day (shiftEndM shift)) ≤
      toSecQ (combine current_dt.day (shiftStartM shift)) then
    { combine current_dt.day (shiftEndM shift) with day := current_dt.day + 1 }
  else combine current_dt.day (shiftEndM shift)

/-- The `next_break_start` local of `add_work_time`: earliest same-day break
start strictly after the cursor (first minimum of the source's scan). -/
def awtNextBreak (shift : Shift) (current_dt : DT) : Option DT :=
  ((shift.breaks.map (fun br => combine current_dt.day br.start_time)).filter
    (fun b => decide (toSecQ current_dt < toSecQ b))).foldl
    (fun acc b => match acc with
      | none => some b
      | some a => if toSecQ b < toSecQ a then some b else some a) none

/-- The `boundary` local of `add_work_time`: next break start when it comes
before the shift end, otherwise the shift end. -/
def awtBoundary (shift : Shift) (current_dt : DT) : DT :=
  match awtNextBreak shift current_dt with
  | some nb => if toSecQ nb < toSecQ (awtShiftEnd shift current_dt) then nb
      else awtShiftEnd shift current_dt
  | none => awtShiftEnd shift current_dt

/-- The `available_minutes` local of `add_work_time`. -/
def awtAvail (shift : Shift) (current_dt : DT) : ℚ :=
  (toSecQ (awtBoundary shift current_dt) - toSecQ current_dt) / 60

/-- One iteration of the `while remaining_minutes > 0` loop of
`time_scheduler.add_work_time` (`k` is the continuation standing for the next
iteration; the source's local variables are the `awt…` helpers above):
break jump-out, before-shift jump, past-shift jump to the next weekday,
otherwise consume up to the next break or the shift end. -/
def awtBody (shift : Shift) (k : DT → ℚ → Option DT) (current_dt : DT)
    (remaining_minutes : ℚ) : Option DT :=
  if remaining_minutes ≤ 0 then some current_dt
  else if shift.breaks ≠ [] ∧ is_during_break current_dt shift.breaks then
    match shift.breaks.find? (fun br =>
        decide ((br.start_time : ℚ) * 60 ≤ timeOfDayQ current_dt ∧
          timeOfDayQ current_dt < (br.end_time : ℚ) * 60)) with
    | some br => k (awtBreakEnd current_dt br) remaining_minutes
    | none => k current_dt remaining_minutes
  else if toSecQ current_dt < toSecQ (combine current_dt.day (shiftStartM shift)) then
    k (combine current_dt.day (shiftStartM shift)) remaining_minutes
  else if toSecQ (awtShiftEnd shift current_dt) ≤ toSecQ current_dt then
    k (combine (skipWeekends 1 7 (current_dt.day + 1)) (shiftStartM shift)) remaining_minutes
  else if remaining_minutes ≤ awtAvail shift current_dt then
    some (addMinutesQ current_dt remaining_minutes)
  else k (awtBoundary shift current_dt) (remaining_minutes - awtAvail shift current_dt)

/-- The `while remaining_minutes > 0` loop of `time_scheduler.add_work_time`,
with fuel. -/
def awtLoop (shift : Shift) : Nat → DT → ℚ → Option DT
  | 0, _, _ => none
  | fuel + 1, current_dt, remaining_minutes =>
      awtBody shift (awtLoop shift fuel) current_dt remaining_minutes

/-- `time_scheduler.add_work_time(start_dt, minutes, shift, buffer_minutes)`:
run the loop for the job minutes, then (via the recursive call in the source)
once more for the buffer. `none` for every fuel = the Python loop never
exits. -/
def add_work_time (start_dt : DT) (minutes : ℚ) (shift : Shift)
    (buffer_minutes : ℚ) (fuel : Nat) : Option DT := do
  let e ← awtLoop shift fuel start_dt minutes
  if 0 < buffer_minutes then awtLoop shift fuel e buffer_minutes else pure e

/-! ### Claim C9 -/

theorem py_round_bounds (q : ℚ) :
    q - 1/2 ≤ (py_round q : ℚ) ∧ (py_round q : ℚ) ≤ q + 1/2 := by
  have h1 : (⌊q⌋ : ℚ) ≤ q := Int.floor_le q
  have h2 : q < (⌊q⌋ : ℚ) + 1 := Int.lt_floor_add_one q
  unfold py_round
  rw [rat_floor_eq_floor]
  split_ifs <;> constructor <;> push_cast <;> linarith

theorem py_round_nonneg (q : ℚ) (hq : 0 ≤ q) : 0 ≤ py_round q := by
  have h : (0 : Int) ≤ ⌊q⌋ := Int.floor_nonneg.mpr hq
  unfold py_round
  rw [rat_floor_eq_floor]
  split_ifs <;> omega

theorem toSecQ_addOneHour (dt : DT) :
    toSecQ (addOneHour dt) = toSecQ dt - dt.minute * 60 + 3600 := by
  unfold addOneHour toSecQ timeOfDayQ
  split_ifs with h
  · push_cast; ring
  · simp only
    push_cast [Nat.cast_sub (show 23 ≤ dt.hour by omega)]
    ring

/-- C9, counterexample to the claim as stated: at 12:07 with 15-minute
rounding, Python `round(7/15) = 0`, so `round_to_nearest` returns 12:00 —
*earlier* than its input — and `get_next_available_start` (shift
7:30–16:30, no breaks) therefore also returns 12:00, before `after_ts`. -/
theorem claim_C9_counterexample :
    toSecQ (round_to_nearest ⟨0, 12, 7, 0⟩ 15) < toSecQ ⟨0, 12, 7, 0⟩ ∧
    toSecQ (get_next_available_start ⟨0, 12, 7, 0⟩
        ⟨1, some 450, some 990, [1, 2, 3, 4, 5], true, []⟩ 15) < toSecQ ⟨0, 12, 7, 0⟩ := by
  with_unfolding_all decide

/-- C9 (amended): `round_to_nearest` snaps the minute to the *nearest*
`m`-minute boundary (Python banker's rounding) and drops seconds, so its
result can precede its input — but never by `30·m + 60` seconds or more; the
"never earlier than the input" claim (and hence the corresponding claim for
`get_next_available_start`) does not hold. -/
theorem claim_C9_amended (dt : DT) (m : Nat) (hm : 1 ≤ m)
    (hmin : dt.minute < 60) (hsec : dt.sec < 60) :
    toSecQ dt - toSecQ (round_to_nearest dt m) < 30 * m + 60 := by
  have hmq : (1 : ℚ) ≤ (m : ℚ) := by exact_mod_cast hm
  simp only [round_to_nearest]
  split_ifs with h60
  · rw [toSecQ_addOneHour]
    have : (dt.minute : ℚ) * 60 ≤ 59 * 60 := by
      have : (dt.minute : ℚ) ≤ 59 := by exact_mod_cast Nat.le_of_lt_succ hmin
      linarith
    linarith
  · have hql : ((dt.minute : ℚ) / m) - 1/2 ≤ (py_round ((dt.minute : ℚ) / m) : ℚ) :=
      (py_round_bounds _).1
    have hnn : 0 ≤ py_round ((dt.minute : ℚ) / m) :=
      py_round_nonneg _ (by positivity)
    have hrm : (0 : Int) ≤ py_round ((dt.minute : ℚ) / m) * m := by positivity
    have h1 : ((py_round ((dt.minute : ℚ) / m) * m).toNat : Int) =
        py_round ((dt.minute : ℚ) / m) * m := Int.toNat_of_nonneg hrm
    have hcast : (((py_round ((dt.minute : ℚ) / m) * m).toNat : Nat) : ℚ) =
        (py_round ((dt.minute : ℚ) / m) : ℚ) * m := by
      have h2 := congrArg (fun z : Int => (z : ℚ)) h1
      push_cast at h2
      exact h2
    have hge : (dt.minute : ℚ) - m / 2 ≤ (py_round ((dt.minute : ℚ) / m) : ℚ) * m := by
      have hmul := mul_le_mul_of_nonneg_right hql (by positivity : (0 : ℚ) ≤ (m : ℚ))
      have hm0 : (m : ℚ) ≠ 0 := by positivity
      calc (dt.minute : ℚ) - m / 2
          = ((dt.minute : ℚ) / m - 1/2) * m := by field_simp; ring
        _ ≤ _ := hmul
    simp only [toSecQ, timeOfDayQ]
    push_cast
    nlinarith [hge, hsec, hmq, hcast]

/-- C9 witness: the amended bound applied at 12:07 with 15-minute
rounding. -/
theorem claim_C9_witness :
    toSecQ (⟨0, 12, 7, 0⟩ : DT) - toSecQ (round_to_nearest ⟨0, 12, 7, 0⟩ 15) <
      30 * 15 + 60 :=
  claim_C9_amended ⟨0, 12, 7, 0⟩ 15 (by norm_num) (by norm_num) (by norm_num)

/-! ### `scheduler.calculate_job_dates`: the forward date-level simulator -/

/-- Stable insertion of `a` into a sorted list: `a` goes before the first
element not strictly below it. -/
def insertSorted (lt : α → α → Bool) (a : α) : List α → List α
  | [] => [a]
  | b :: bs => if lt b a then b :: insertSorted lt a bs else a :: b :: bs

/-- Stable sort with a strict-order key, the semantics of Python's
`sorted`/`order_by`: ties keep their original relative order. -/
def pySorted (lt : α → α → Bool) : List α → List α
  | [] => []
  | a :: rest => insertSorted lt a (pySorted lt rest)

theorem mem_insertSorted (lt : α → α → Bool) (a x : α) :
    ∀ l : List α, x ∈ insertSorted lt a l ↔ x = a ∨ x ∈ l := by
  intro l
  induction l with
  | nil => simp [insertSorted]
  | cons b bs ih =>
      unfold insertSorted
      split_ifs
      · simp only [List.mem_cons, ih]
        tauto
      · simp only [List.mem_cons]

theorem mem_pySorted (lt : α → α → Bool) (x : α) :
    ∀ l : List α, x ∈ pySorted lt l ↔ x ∈ l := by
  intro l
  induction l with
  | nil => simp [pySorted]
  | cons a rest ih =>
      unfold pySorted
      rw [mem_insertSorted, ih]
      simp

/-- The line queue: incomplete jobs of the line ordered by
`line_position`. -/
def jobsOnLine (db : Db) (line_id : Nat) : List WorkOrder :=
  pySorted (fun a b => decide (a.line_position.getD 0 < b.line_position.getD 0))
    (db.jobs.filter fun j => decide (j.line_id = some line_id ∧ j.is_complete = false))

/-- `session.query(SMTLine).filter(id == line_id).first()`, projected to the
name. -/
def lineName (db : Db) (line_id : Nat) : Option String :=
  (db.lines.find? (fun l => l.id == line_id)).map (·.name)

/-- The Line-1 (`1-EURO 264`) double-time factor. -/
def cjdMultiplier (db : Db) (line_id : Nat) : ℚ :=
  if lineName db line_id = some "1-EURO 264" then 2 else 1

/-- The `while is_weekend(d) or get_capacity_for_date(...) == 0: d += 1`
scan, with fuel. -/
def findValidDay (db : Db) (line_id : Nat) (hpd : ℚ) : Nat → Int → Option Int
  | 0, _ => none
  | fuel + 1, d =>
      if is_weekend d ∨ get_capacity_for_date db line_id d hpd = 0 then
        findValidDay db line_id hpd fuel (d + 1)
      else some d

/-- The `while minutes_remaining > 0` day-consumption loop of
`calculate_job_dates`, with fuel: weekend/zero-capacity days are skipped,
valid days consume their capacity; returns the day on which the remaining
minutes reach `≤ 0`. -/
def consumeLoop (db : Db) (line_id : Nat) (hpd : ℚ) : Nat → ℚ → Int → Option Int
  | 0, _, _ => none
  | fuel + 1, minutes_remaining, end_date =>
      if minutes_remaining ≤ 0 then some end_date
      else
        let day_capacity_hours := get_capacity_for_date db line_id end_date hpd
        if is_weekend end_date ∨ day_capacity_hours = 0 then
          consumeLoop db line_id hpd fuel minutes_remaining (end_date + 1)
        else
          let rem := minutes_remaining - day_capacity_hours * 60
          if 0 < rem then consumeLoop db line_id hpd fuel rem (end_date + 1)
          else some end_date

/-- The per-job loop of `calculate_job_dates`: a locked job carrying both
datetimes keeps them verbatim (the cursor still advances past it); any other
job starts at the first valid day at/after the cursor and consumes daily
capacity until done. -/
def cjdLoop (db : Db) (line_id : Nat) (hpd mult : ℚ) (fuel : Nat) :
    List WorkOrder → Int → List (Nat × Int × Int) → Option (List (Nat × Int × Int))
  | [], _, acc => some acc
  | job :: rest, current_date, acc =>
      if job.is_locked = true ∧ job.calculated_start_datetime.isSome ∧
          job.calculated_end_datetime.isSome then
        let locked_start := job.calculated_start_datetime.getD 0
        let locked_end := job.calculated_end_datetime.getD 0
        match findValidDay db line_id hpd fuel (locked_end + 1) with
        | none => none
        | some cur =>
            cjdLoop db line_id hpd mult fuel rest cur (acc ++ [(job.id, locked_start, locked_end)])
      else
        match findValidDay db line_id hpd fuel current_date with
        | none => none
        | some start_date =>
            let total := (job.time_minutes + job.setup_time_hours * 60) * mult
            match consumeLoop db line_id hpd fuel total start_date with
            | none => none
            | some end_date =>
                match findValidDay db line_id hpd fuel (end_date + 1) with
                | none => none
                | some cur =>
                    cjdLoop db line_id hpd mult fuel rest cur (acc ++ [(job.id, start_date, end_date)])

/-- `scheduler.calculate_job_dates(session, line_id, line_hours_per_day)`,
with fuel (`none` for every fuel = the Python function never returns).
Returns the `job_id -> (start_date, end_date)` map as an ordered list. -/
def calculate_job_dates (db : Db) (line_id : Nat) (hpd : ℚ) (fuel : Nat) :
    Option (List (Nat × Int × Int)) :=
  let jobs := jobsOnLine db line_id
  if jobs = [] then some []
  else
    match findValidDay db line_id hpd fuel db.today with
    | none => none
    | some cur => cjdLoop db line_id hpd (cjdMultiplier db line_id) fuel jobs cur []

/-- Nontermination of the date-level simulator, expressed over all fuels. -/
def cjdDiverges (db : Db) (line_id : Nat) (hpd : ℚ) : Prop :=
  ∀ fuel, calculate_job_dates db line_id hpd fuel = none

/-- Nontermination of `add_work_time`, expressed over all fuels. -/
def awtDiverges (start_dt : DT) (minutes : ℚ) (shift : Shift) (buffer_minutes : ℚ) : Prop :=
  ∀ fuel, add_work_time start_dt minutes shift buffer_minutes fuel = none

/-! ### Claim C8, counterexample side: both simulators can loop forever -/

/-- A store whose line 1 has one queued job, no shifts and no overrides: with
a zero default-hours parameter (`main.py` passes `line.hours_per_day`, which
is admin-editable) every day resolves to capacity 0. -/
def cjdBadJob : WorkOrder :=
  { woDefault with
      id := 1
      customer := "ACME"
      current_location := "SMT PRODUCTION"
      line_id := some 1
      line_position := some 1
      time_minutes := 60
      cetec_ship_date := some 10 }

/-- Seen by `cjdBadDb_capacity_zero`: one queued job, no shift or override
rows. -/
def cjdBadDb : Db :=
  { jobs := [cjdBadJob], lines := [], shifts := [], overrides := [], today := 0 }

theorem cjdBadDb_capacity_zero (d : Int) : get_capacity_for_date cjdBadDb 1 d 0 = 0 := rfl

theorem cjdBadDb_findValidDay_none : ∀ (fuel : Nat) (d : Int),
    findValidDay cjdBadDb 1 0 fuel d = none := by
  intro fuel
  induction fuel with
  | zero => intro d; rfl
  | succ f ih =>
      intro d
      unfold findValidDay
      rw [if_pos (Or.inr (cjdBadDb_capacity_zero d))]
      exact ih (d + 1)

/-- A shift 9:00–17:00 entirely covered by an unpaid break 0:00–23:59:
`add_work_time` forever bounces between the break exit and the next day's
shift start without consuming a minute. -/
def awtBadShift : Shift := ⟨1, some 540, some 1020, [1, 2, 3, 4, 5], true, [⟨0, 1439, false⟩]⟩

theorem awt_stepA (day : Int) (k : DT → ℚ → Option DT) :
    awtBody awtBadShift k ⟨day, 9, 0, 0⟩ 30 = k ⟨day, 23, 59, 0⟩ 30 := by
  have ht : timeOfDayQ (⟨day, 9, 0, 0⟩ : DT) = 32400 := by norm_num [timeOfDayQ]
  have h30 : ¬((30 : ℚ) ≤ 0) := by norm_num
  have hne : awtBadShift.breaks ≠ [] := by simp [awtBadShift]
  have hdur : is_during_break ⟨day, 9, 0, 0⟩ awtBadShift.breaks = true := by
    norm_num [is_during_break, timeOfDayQ, awtBadShift]
  have hfind : awtBadShift.breaks.find? (fun br =>
      decide ((br.start_time : ℚ) * 60 ≤ (32400 : ℚ) ∧
        (32400 : ℚ) < (br.end_time : ℚ) * 60)) = some ⟨0, 1439, false⟩ := by
    norm_num [awtBadShift, List.find?]
  have hbe : ¬(toSecQ (combine day 1439) ≤ toSecQ ⟨day, 9, 0, 0⟩) := by
    simp only [combine, toSecQ, timeOfDayQ, not_le]
    push_cast
    norm_num
  unfold awtBody
  simp only [ht]
  rw [if_neg h30, if_pos ⟨hne, hdur⟩, hfind]
  show k (awtBreakEnd ⟨day, 9, 0, 0⟩ ⟨0, 1439, false⟩) 30 = k ⟨day, 23, 59, 0⟩ 30
  unfold awtBreakEnd
  rw [if_neg hbe]
  rfl

theorem awt_stepB (day : Int) (k : DT → ℚ → Option DT) :
    awtBody awtBadShift k ⟨day, 23, 59, 0⟩ 30 =
      k ⟨skipWeekends 1 7 (day + 1), 9, 0, 0⟩ 30 := by
  have h30 : ¬((30 : ℚ) ≤ 0) := by norm_num
  have hdur : ¬(awtBadShift.breaks ≠ [] ∧
      is_during_break ⟨day, 23, 59, 0⟩ awtBadShift.breaks = true) := by
    rintro ⟨-, hb⟩
    norm_num [is_during_break, timeOfDayQ, awtBadShift] at hb
  have hlt : ¬(toSecQ (⟨day, 23, 59, 0⟩ : DT) <
      toSecQ (combine (⟨day, 23, 59, 0⟩ : DT).day (shiftStartM awtBadShift))) := by
    simp only [combine, toSecQ, timeOfDayQ, shiftStartM, awtBadShift, not_lt]
    push_cast
    norm_num
  have hover : ¬(toSecQ (combine (⟨day, 23, 59, 0⟩ : DT).day (shiftEndM awtBadShift)) ≤
      toSecQ (combine (⟨day, 23, 59, 0⟩ : DT).day (shiftStartM awtBadShift))) := by
    simp only [combine, toSecQ, timeOfDayQ, shiftStartM, shiftEndM, awtBadShift, not_le]
    push_cast
    norm_num
  have hend : toSecQ (awtShiftEnd awtBadShift ⟨day, 23, 59, 0⟩) ≤
      toSecQ (⟨day, 23, 59, 0⟩ : DT) := by
    unfold awtShiftEnd
    rw [if_neg hover]
    simp only [combine, toSecQ, timeOfDayQ, shiftEndM, awtBadShift]
    push_cast
    norm_num
  unfold awtBody
  rw [if_neg h30, if_neg hdur, if_neg hlt, if_pos hend]
  rfl

theorem awtLoop_bad_none : ∀ fuel : Nat,
    (∀ day : Int, awtLoop awtBadShift fuel ⟨day, 9, 0, 0⟩ 30 = none) ∧
    (∀ day : Int, awtLoop awtBadShift fuel ⟨day, 23, 59, 0⟩ 30 = none) := by
  intro fuel
  induction fuel with
  | zero => exact ⟨fun _ => rfl, fun _ => rfl⟩
  | succ f ih =>
      constructor
      · intro day
        show awtBody awtBadShift (awtLoop awtBadShift f) ⟨day, 9, 0, 0⟩ 30 = none
        rw [awt_stepA]
        exact ih.2 day
      · intro day
        show awtBody awtBadShift (awtLoop awtBadShift f) ⟨day, 23, 59, 0⟩ 30 = none
        rw [awt_stepB]
        exact ih.1 _

/-- C8, counterexample to the claim as stated: with capacity resolving to 0
on every future date (no shifts, no overrides, zero default hours — reachable
through the API's `line.hours_per_day`), `calculate_job_dates` never returns
for a nonempty queue; and `add_work_time` never returns when an unpaid break
covers the whole shift. -/
theorem claim_C8_counterexample :
    cjdDiverges cjdBadDb 1 0 ∧ awtDiverges ⟨0, 9, 0, 0⟩ 30 awtBadShift 0 := by
  constructor
  · intro fuel
    have hjobs : jobsOnLine cjdBadDb 1 ≠ [] := by with_unfolding_all decide
    unfold calculate_job_dates
    rw [if_neg hjobs, cjdBadDb_findValidDay_none]
  · intro fuel
    unfold add_work_time
    rw [(awtLoop_bad_none fuel).1 0]
    rfl

/-! ### Claim C8, amended side: termination under positive capacity -/

/-- Every non-weekend day resolves to capacity at least `m > 0`.  Capacity
values are drawn from the finite override/shift/default configuration, so
this holds exactly when capacity is positive on every non-weekend day. -/
def CapBounded (db : Db) (line_id : Nat) (hpd m : ℚ) : Prop :=
  0 < m ∧ ∀ d : Int, is_weekend d = false → m ≤ get_capacity_for_date db line_id d hpd

theorem CapBounded.cap_ne_zero {db : Db} {line_id : Nat} {hpd m : ℚ}
    (H : CapBounded db line_id hpd m) (d : Int) (hw : is_weekend d = false) :
    ¬(get_capacity_for_date db line_id d hpd = 0) := by
  intro h
  have h1 := H.2 d hw
  rw [h] at h1
  exact absurd (lt_of_lt_of_le H.1 h1) (lt_irrefl 0)

theorem weekend_or3 (d : Int) :
    is_weekend d = false ∨
      (is_weekend d = true ∧ is_weekend (d + 1) = false) ∨
      (is_weekend d = true ∧ is_weekend (d + 1) = true ∧ is_weekend (d + 2) = false) := by
  by_cases h0 : is_weekend d = true
  · by_cases h1 : is_weekend (d + 1) = true
    · refine Or.inr (Or.inr ⟨h0, h1, ?_⟩)
      rw [is_weekend_iff] at h0 h1
      rw [is_weekend_eq_false_iff]
      omega
    · exact Or.inr (Or.inl ⟨h0, by simpa using h1⟩)
  · exact Or.inl (by simpa using h0)

theorem findValidDay_succ_eq (db : Db) (line_id : Nat) (hpd : ℚ) (f : Nat) (d : Int) :
    findValidDay db line_id hpd (f + 1) d =
      if is_weekend d ∨ get_capacity_for_date db line_id d hpd = 0 then
        findValidDay db line_id hpd f (d + 1)
      else some d := rfl

theorem findValidDay_step_skip {db : Db} {line_id : Nat} {hpd : ℚ} {fuel : Nat} {d : Int}
    (h : is_weekend d = true) :
    findValidDay db line_id hpd (fuel + 1) d = findValidDay db line_id hpd fuel (d + 1) := by
  rw [findValidDay_succ_eq, if_pos (Or.inl h)]

theorem findValidDay_step_stop {db : Db} {line_id : Nat} {hpd m : ℚ} {fuel : Nat} {d : Int}
    (H : CapBounded db line_id hpd m) (h : is_weekend d = false) :
    findValidDay db line_id hpd (fuel + 1) d = some d := by
  rw [findValidDay_succ_eq, if_neg]
  rintro (hw | hc)
  · rw [h] at hw
    exact absurd hw (by simp)
  · exact H.cap_ne_zero d h hc

/-- Under `CapBounded`, the day scan finds the first valid day within two
steps, for any fuel of at least 3. -/
theorem findValidDay_succeeds {db : Db} {line_id : Nat} {hpd m : ℚ}
    (H : CapBounded db line_id hpd m) (d : Int) :
    ∃ x, d ≤ x ∧ is_weekend x = false ∧
      ∀ fuel, 3 ≤ fuel → findValidDay db line_id hpd fuel d = some x := by
  rcases weekend_or3 d with h | ⟨h0, h1⟩ | ⟨h0, h1, h2⟩
  · refine ⟨d, le_refl d, h, fun fuel hf => ?_⟩
    obtain ⟨f, rfl⟩ : ∃ f, fuel = f + 1 := ⟨fuel - 1, by omega⟩
    exact findValidDay_step_stop H h
  · refine ⟨d + 1, by omega, h1, fun fuel hf => ?_⟩
    obtain ⟨f, rfl⟩ : ∃ f, fuel = f + 2 := ⟨fuel - 2, by omega⟩
    rw [findValidDay_step_skip h0]
    exact findValidDay_step_stop H h1
  · refine ⟨d + 2, by omega, h2, fun fuel hf => ?_⟩
    obtain ⟨f, rfl⟩ : ∃ f, fuel = f + 3 := ⟨fuel - 3, by omega⟩
    rw [findValidDay_step_skip h0, findValidDay_step_skip h1,
      show d + 1 + 1 = d + 2 from by omega]
    exact findValidDay_step_stop H h2

theorem consumeLoop_succ_eq (db : Db) (line_id : Nat) (hpd : ℚ) (f : Nat) (rem : ℚ) (d : Int) :
    consumeLoop db line_id hpd (f + 1) rem d =
      if rem ≤ 0 then some d
      else if is_weekend d ∨ get_capacity_for_date db line_id d hpd = 0 then
        consumeLoop db line_id hpd f rem (d + 1)
      else if 0 < rem - get_capacity_for_date db line_id d hpd * 60 then
        consumeLoop db line_id hpd f (rem - get_capacity_for_date db line_id d hpd * 60) (d + 1)
      else some d := rfl

theorem consumeLoop_mono {db : Db} {line_id : Nat} {hpd : ℚ} :
    ∀ {f : Nat} {rem : ℚ} {d : Int} {e : Int},
      consumeLoop db line_id hpd f rem d = some e →
      ∀ g, f ≤ g → consumeLoop db line_id hpd g rem d = some e := by
  intro f
  induction f with
  | zero =>
      intro rem d e h
      exact absurd h (by simp [consumeLoop])
  | succ n ih =>
      intro rem d e h g hg
      obtain ⟨g', rfl⟩ : ∃ g', g = g' + 1 := ⟨g - 1, by omega⟩
      rw [consumeLoop_succ_eq] at h ⊢
      split_ifs at h ⊢ with h1 h2 h3
      · exact h
      · exact ih h g' (by omega)
      · exact ih h g' (by omega)
      · exact h

/-- Under `CapBounded`, the consumption loop finishes: every valid day eats
at least `60·m` minutes and at most two weekend days separate valid days. -/
theorem consumeLoop_succeeds {db : Db} {line_id : Nat} {hpd m : ℚ}
    (H : CapBounded db line_id hpd m) :
    ∀ (k : Nat) (rem : ℚ) (d : Int), rem ≤ k * (60 * m) →
      ∃ e, consumeLoop db line_id hpd (3 * k + 1) rem d = some e := by
  intro k
  induction k with
  | zero =>
      intro rem d hrem
      have hr : rem ≤ 0 := by
        push_cast at hrem
        linarith
      refine ⟨d, ?_⟩
      rw [show 3 * 0 + 1 = 0 + 1 from rfl, consumeLoop_succ_eq, if_pos hr]
  | succ n ih =>
      intro rem d hrem
      by_cases hr : rem ≤ 0
      · refine ⟨d, ?_⟩
        rw [show 3 * (n + 1) + 1 = (3 * n + 3) + 1 from by omega, consumeLoop_succ_eq,
          if_pos hr]
      · have hkey : ∀ (d' : Int), is_weekend d' = false →
            ∀ f, 3 * n + 1 ≤ f →
            ∃ e, consumeLoop db line_id hpd (f + 1) rem d' = some e := by
          intro d' hw f hf
          have hcap := H.2 d' hw
          have hne := H.cap_ne_zero d' hw
          have hcond : ¬(is_weekend d' = true ∨ get_capacity_for_date db line_id d' hpd = 0) := by
            rintro (hwk | hc)
            · rw [hw] at hwk
              exact absurd hwk (by simp)
            · exact hne hc
          rw [consumeLoop_succ_eq, if_neg hr, if_neg hcond]
          split_ifs with hrem2
          · have hX : ((n : ℚ) + 1) * (60 * m) = (n : ℚ) * (60 * m) + 60 * m := by ring
            have hc60 : 60 * m ≤ get_capacity_for_date db line_id d' hpd * 60 := by linarith
            have hrem3 : rem - get_capacity_for_date db line_id d' hpd * 60 ≤
                (n : ℚ) * (60 * m) := by
              push_cast at hrem
              linarith
            obtain ⟨e, he⟩ := ih _ (d' + 1) hrem3
            exact ⟨e, consumeLoop_mono he f hf⟩
          · exact ⟨d', rfl⟩
        rcases weekend_or3 d with h | ⟨h0, h1⟩ | ⟨h0, h1, h2⟩
        · obtain ⟨e, he⟩ := hkey d h (3 * n + 3) (by omega)
          exact ⟨e, by rw [show 3 * (n + 1) + 1 = (3 * n + 3) + 1 from by omega]; exact he⟩
        · obtain ⟨e, he⟩ := hkey (d + 1) h1 (3 * n + 2) (by omega)
          refine ⟨e, ?_⟩
          rw [show 3 * (n + 1) + 1 = (3 * n + 3) + 1 from by omega, consumeLoop_succ_eq,
            if_neg hr, if_pos (Or.inl h0),
            show (3 : Nat) * n + 3 = (3 * n + 2) + 1 from by omega]
          exact he
        · obtain ⟨e, he⟩ := hkey (d + 2) h2 (3 * n + 1) (by omega)
          refine ⟨e, ?_⟩
          rw [show 3 * (n + 1) + 1 = (3 * n + 3) + 1 from by omega, consumeLoop_succ_eq,
            if_neg hr, if_pos (Or.inl h0),
            show (3 : Nat) * n + 3 = (3 * n + 2) + 1 from by omega, consumeLoop_succ_eq,
            if_neg hr, if_pos (Or.inl h1), show d + 1 + 1 = d + 2 from by omega,
            show (3 : Nat) * n + 2 = (3 * n + 1) + 1 from by omega]
          exact he

theorem findValidDay_mono {db : Db} {line_id : Nat} {hpd : ℚ} :
    ∀ {f : Nat} {d x : Int}, findValidDay db line_id hpd f d = some x →
      ∀ g, f ≤ g → findValidDay db line_id hpd g d = some x := by
  intro f
  induction f with
  | zero => intro d x h; exact absurd h (by simp [findValidDay])
  | succ n ih =>
      intro d x h g hg
      obtain ⟨g', rfl⟩ : ∃ g', g = g' + 1 := ⟨g - 1, by omega⟩
      rw [findValidDay_succ_eq] at h ⊢
      split_ifs at h ⊢ with h1
      · exact ih h g' (by omega)
      · exact h

theorem cjdLoop_cons_eq (db : Db) (line_id : Nat) (hpd mult : ℚ) (f : Nat)
    (job : WorkOrder) (rest : List WorkOrder) (cur : Int) (acc : List (Nat × Int × Int)) :
    cjdLoop db line_id hpd mult f (job :: rest) cur acc =
      if job.is_locked = true ∧ job.calculated_start_datetime.isSome ∧
          job.calculated_end_datetime.isSome then
        match findValidDay db line_id hpd f (job.calculated_end_datetime.getD 0 + 1) with
        | none => none
        | some cur' =>
            cjdLoop db line_id hpd mult f rest cur'
              (acc ++ [(job.id, job.calculated_start_datetime.getD 0,
                job.calculated_end_datetime.getD 0)])
      else
        match findValidDay db line_id hpd f cur with
        | none => none
        | some start_date =>
            match consumeLoop db line_id hpd f
                ((job.time_minutes + job.setup_time_hours * 60) * mult) start_date with
            | none => none
            | some end_date =>
                match findValidDay db line_id hpd f (end_date + 1) with
                | none => none
                | some cur' =>
                    cjdLoop db line_id hpd mult f rest cur' (acc ++ [(job.id, start_date, end_date)]) :=
  rfl

theorem cjdLoop_mono {db : Db} {line_id : Nat} {hpd mult : ℚ} :
    ∀ (jobs : List WorkOrder) (f : Nat) (cur : Int) (acc res : List (Nat × Int × Int)),
      cjdLoop db line_id hpd mult f jobs cur acc = some res →
      ∀ g, f ≤ g → cjdLoop db line_id hpd mult g jobs cur acc = some res := by
  intro jobs
  induction jobs with
  | nil =>
      intro f cur acc res h g hg
      simpa [cjdLoop] using h
  | cons job rest ih =>
      intro f cur acc res h g hg
      rw [cjdLoop_cons_eq] at h ⊢
      split_ifs at h ⊢ with hlck
      · cases hfv : findValidDay db line_id hpd f (job.calculated_end_datetime.getD 0 + 1) with
        | none => rw [hfv] at h; exact absurd h (by simp)
        | some cur' =>
            simp only [hfv] at h
            simp only [findValidDay_mono hfv g hg]
            exact ih f cur' _ res h g hg
      · cases hfv : findValidDay db line_id hpd f cur with
        | none => rw [hfv] at h; exact absurd h (by simp)
        | some start_date =>
            simp only [hfv] at h
            simp only [findValidDay_mono hfv g hg]
            cases hcl : consumeLoop db line_id hpd f
                ((job.time_minutes + job.setup_time_hours * 60) * mult) start_date with
            | none => rw [hcl] at h; exact absurd h (by simp)
            | some end_date =>
                simp only [hcl] at h
                simp only [consumeLoop_mono hcl g hg]
                cases hfv2 : findValidDay db line_id hpd f (end_date + 1) with
                | none => rw [hfv2] at h; exact absurd h (by simp)
                | some cur' =>
                    simp only [hfv2] at h
                    simp only [findValidDay_mono hfv2 g hg]
                    exact ih f cur' _ res h g hg

theorem cjdLoop_succeeds {db : Db} {line_id : Nat} {hpd m : ℚ}
    (H : CapBounded db line_id hpd m) (mult : ℚ) :
    ∀ (jobs : List WorkOrder) (cur : Int) (acc : List (Nat × Int × Int)),
      ∃ f res, cjdLoop db line_id hpd mult f jobs cur acc = some res := by
  intro jobs
  induction jobs with
  | nil => intro cur acc; exact ⟨0, acc, rfl⟩
  | cons job rest ih =>
      intro cur acc
      by_cases hlck : job.is_locked = true ∧ job.calculated_start_datetime.isSome ∧
          job.calculated_end_datetime.isSome
      · obtain ⟨x, -, -, hx⟩ :=
          findValidDay_succeeds H (job.calculated_end_datetime.getD 0 + 1)
        obtain ⟨f2, res, hres⟩ := ih x (acc ++ [(job.id, job.calculated_start_datetime.getD 0,
          job.calculated_end_datetime.getD 0)])
        refine ⟨max 3 f2, res, ?_⟩
        rw [cjdLoop_cons_eq, if_pos hlck]
        simp only [hx (max 3 f2) (le_max_left 3 f2)]
        exact cjdLoop_mono rest f2 x _ res hres _ (le_max_right 3 f2)
      · obtain ⟨x, -, -, hx⟩ := findValidDay_succeeds H cur
        set rem := (job.time_minutes + job.setup_time_hours * 60) * mult with hremdef
        have hm60 : (0 : ℚ) < 60 * m := by linarith [H.1]
        obtain ⟨k, hk⟩ := exists_nat_ge (rem / (60 * m))
        have hk' : rem ≤ (k : ℚ) * (60 * m) := by
          rw [div_le_iff₀ hm60] at hk
          linarith
        obtain ⟨e, he⟩ := consumeLoop_succeeds H k rem x hk'
        obtain ⟨x2, -, -, hx2⟩ := findValidDay_succeeds H (e + 1)
        obtain ⟨f2, res, hres⟩ := ih x2 (acc ++ [(job.id, x, e)])
        refine ⟨max 3 (max (3 * k + 1) f2), res, ?_⟩
        rw [cjdLoop_cons_eq, if_neg hlck]
        simp only [hx _ (le_max_left 3 _)]
        simp only [consumeLoop_mono he _ (le_trans (le_max_left (3 * k + 1) f2) (le_max_right 3 _))]
        simp only [hx2 _ (le_max_left 3 _)]
        exact cjdLoop_mono rest f2 x2 _ res hres _
          (le_trans (le_max_right (3 * k + 1) f2) (le_max_right 3 _))

/-- Under `CapBounded`, the date-level simulator terminates: some fuel makes
it return. -/
theorem calculate_job_dates_succeeds {db : Db} {line_id : Nat} {hpd m : ℚ}
    (H : CapBounded db line_id hpd m) :
    ∃ f res, calculate_job_dates db line_id hpd f = some res := by
  by_cases hj : jobsOnLine db line_id = []
  · exact ⟨0, [], by simp [calculate_job_dates, hj]⟩
  · obtain ⟨x, -, -, hx⟩ := findValidDay_succeeds H db.today
    obtain ⟨f2, res, hres⟩ := cjdLoop_succeeds H (cjdMultiplier db line_id)
      (jobsOnLine db line_id) x []
    refine ⟨max 3 f2, res, ?_⟩
    unfold calculate_job_dates
    rw [if_neg hj]
    simp only [hx _ (le_max_left 3 f2)]
    exact cjdLoop_mono _ f2 x _ res hres _ (le_max_right 3 f2)

theorem toSecQ_combine (d : Int) (a : Nat) :
    toSecQ (combine d a) = (d : ℚ) * 86400 + (a : ℚ) * 60 := by
  unfold toSecQ timeOfDayQ combine
  simp only
  rw [show a / 60 * 60 + a % 60 = a from by omega]
  ring

theorem awtShiftEnd_eq {s : Shift} (hlt : shiftStartM s < shiftEndM s) (cur : DT) :
    awtShiftEnd s cur = combine cur.day (shiftEndM s) := by
  unfold awtShiftEnd
  rw [if_neg]
  intro hle
  rw [toSecQ_combine, toSecQ_combine] at hle
  have h1 : (shiftEndM s : ℚ) ≤ (shiftStartM s : ℚ) := by linarith
  exact absurd (by exact_mod_cast h1) (not_le.mpr hlt)

theorem awtBoundary_eq {s : Shift} (hbr : s.breaks = [])
    (hlt : shiftStartM s < shiftEndM s) (cur : DT) :
    awtBoundary s cur = combine cur.day (shiftEndM s) := by
  unfold awtBoundary awtNextBreak
  rw [hbr]
  simp only [List.map_nil, List.filter_nil, List.foldl_nil]
  exact awtShiftEnd_eq hlt cur

theorem awtAvail_eq {s : Shift} (hbr : s.breaks = [])
    (hlt : shiftStartM s < shiftEndM s) (cur : DT) :
    awtAvail s cur = (toSecQ (combine cur.day (shiftEndM s)) - toSecQ cur) / 60 := by
  unfold awtAvail
  rw [awtBoundary_eq hbr hlt]

theorem awt_no_break_cond {s : Shift} (hbr : s.breaks = []) (cur : DT) :
    ¬(s.breaks ≠ [] ∧ is_during_break cur s.breaks = true) :=
  fun h => h.1 hbr

theorem awtLoop_mono {s : Shift} :
    ∀ {f : Nat} {cur : DT} {rem : ℚ} {e : DT},
      awtLoop s f cur rem = some e → ∀ g, f ≤ g → awtLoop s g cur rem = some e := by
  intro f
  induction f with
  | zero => intro cur rem e h; exact absurd h (by simp [awtLoop])
  | succ n ih =>
      intro cur rem e h g hg
      obtain ⟨g', rfl⟩ : ∃ g', g = g' + 1 := ⟨g - 1, by omega⟩
      have h' : awtBody s (awtLoop s n) cur rem = some e := h
      show awtBody s (awtLoop s g') cur rem = some e
      unfold awtBody at h' ⊢
      split_ifs at h' ⊢ with h1 h2 h3 h4 h5
      · exact h'
      · cases hf : s.breaks.find? (fun br =>
            decide ((br.start_time : ℚ) * 60 ≤ timeOfDayQ cur ∧
              timeOfDayQ cur < (br.end_time : ℚ) * 60)) with
        | none => simp only [hf] at h' ⊢; exact ih h' g' (by omega)
        | some br => simp only [hf] at h' ⊢; exact ih h' g' (by omega)
      · exact ih h' g' (by omega)
      · exact ih h' g' (by omega)
      · exact h'
      · exact ih h' g' (by omega)

/-- Termination of `add_work_time`'s loop starting at a shift start:
each full shift window consumes `shiftEnd − shiftStart` minutes. -/
theorem awtLoop_atStart {s : Shift} (hbr : s.breaks = [])
    (hlt : shiftStartM s < shiftEndM s) :
    ∀ (k : Nat) (d : Int) (rem : ℚ), 0 < rem →
      rem ≤ (k : ℚ) * ((shiftEndM s : ℚ) - (shiftStartM s : ℚ)) →
      ∃ e, awtLoop s (2 * k) (combine d (shiftStartM s)) rem = some e := by
  have hLpos : (0 : ℚ) < (shiftEndM s : ℚ) - (shiftStartM s : ℚ) := by
    have : (shiftStartM s : ℚ) < (shiftEndM s : ℚ) := by exact_mod_cast hlt
    linarith
  intro k
  induction k with
  | zero =>
      intro d rem h0 hk
      push_cast at hk
      exact absurd (lt_of_lt_of_le h0 hk) (by simp)
  | succ n ih =>
      intro d rem h0 hk
      have hday : (combine d (shiftStartM s)).day = d := rfl
      have hc3 : ¬(toSecQ (combine d (shiftStartM s)) <
          toSecQ (combine (combine d (shiftStartM s)).day (shiftStartM s))) := by
        rw [hday]
        exact lt_irrefl _
      have hc4 : ¬(toSecQ (awtShiftEnd s (combine d (shiftStartM s))) ≤
          toSecQ (combine d (shiftStartM s))) := by
        rw [awtShiftEnd_eq hlt, hday, toSecQ_combine, toSecQ_combine]
        intro hle
        have : (shiftEndM s : ℚ) ≤ (shiftStartM s : ℚ) := by linarith
        exact absurd (by exact_mod_cast this) (not_le.mpr hlt)
      have havail : awtAvail s (combine d (shiftStartM s)) =
          (shiftEndM s : ℚ) - (shiftStartM s : ℚ) := by
        rw [awtAvail_eq hbr hlt, hday, toSecQ_combine, toSecQ_combine]
        ring
      rw [show 2 * (n + 1) = (2 * n + 1) + 1 from by omega]
      show ∃ e, awtBody s (awtLoop s (2 * n + 1)) (combine d (shiftStartM s)) rem = some e
      unfold awtBody
      rw [if_neg (by linarith), if_neg (awt_no_break_cond hbr _), if_neg hc3, if_neg hc4]
      by_cases hc5 : rem ≤ awtAvail s (combine d (shiftStartM s))
      · rw [if_pos hc5]
        exact ⟨_, rfl⟩
      · rw [if_neg hc5]
        rw [havail] at hc5
        have h0' : 0 < rem - ((shiftEndM s : ℚ) - (shiftStartM s : ℚ)) := by
          linarith [not_le.mp hc5]
        have hk' : rem - ((shiftEndM s : ℚ) - (shiftStartM s : ℚ)) ≤
            (n : ℚ) * ((shiftEndM s : ℚ) - (shiftStartM s : ℚ)) := by
          push_cast at hk
          linarith
        -- next iteration: at the shift end, jump to the next weekday's start
        rw [awtBoundary_eq hbr hlt, hday, havail]
        show ∃ e, awtBody s (awtLoop s (2 * n)) (combine d (shiftEndM s))
          (rem - ((shiftEndM s : ℚ) - (shiftStartM s : ℚ))) = some e
        have hday2 : (combine d (shiftEndM s)).day = d := rfl
        have hc3' : ¬(toSecQ (combine d (shiftEndM s)) <
            toSecQ (combine (combine d (shiftEndM s)).day (shiftStartM s))) := by
          rw [hday2, toSecQ_combine, toSecQ_combine]
          intro hltq
          have : (shiftEndM s : ℚ) < (shiftStartM s : ℚ) := by linarith
          have := by exact_mod_cast this
          omega
        have hc4' : toSecQ (awtShiftEnd s (combine d (shiftEndM s))) ≤
            toSecQ (combine d (shiftEndM s)) := by
          rw [awtShiftEnd_eq hlt, hday2]
        unfold awtBody
        rw [if_neg (by linarith), if_neg (awt_no_break_cond hbr _), if_neg hc3', if_pos hc4',
          hday2]
        exact ih (skipWeekends 1 7 (d + 1)) _ h0' hk'

/-- Termination of `add_work_time`'s loop from any starting timestamp, for a
break-free shift with a positive working window. -/
theorem awtLoop_succeeds {s : Shift} (hbr : s.breaks = [])
    (hlt : shiftStartM s < shiftEndM s) (cur : DT) (rem : ℚ) :
    ∃ f e, awtLoop s f cur rem = some e := by
  have hLpos : (0 : ℚ) < (shiftEndM s : ℚ) - (shiftStartM s : ℚ) := by
    have : (shiftStartM s : ℚ) < (shiftEndM s : ℚ) := by exact_mod_cast hlt
    linarith
  by_cases h0 : rem ≤ 0
  · refine ⟨1, cur, ?_⟩
    show awtBody s (awtLoop s 0) cur rem = some cur
    unfold awtBody
    rw [if_pos h0]
  · obtain ⟨k, hk⟩ := exists_nat_ge (rem / ((shiftEndM s : ℚ) - (shiftStartM s : ℚ)))
    have hk' : rem ≤ (k : ℚ) * ((shiftEndM s : ℚ) - (shiftStartM s : ℚ)) := by
      rw [div_le_iff₀ hLpos] at hk
      linarith
    by_cases hc3 : toSecQ cur < toSecQ (combine cur.day (shiftStartM s))
    · obtain ⟨e, he⟩ := awtLoop_atStart hbr hlt k cur.day rem (by linarith) hk'
      refine ⟨2 * k + 1, e, ?_⟩
      show awtBody s (awtLoop s (2 * k)) cur rem = some e
      unfold awtBody
      rw [if_neg h0, if_neg (awt_no_break_cond hbr _), if_pos hc3]
      exact he
    · by_cases hc4 : toSecQ (awtShiftEnd s cur) ≤ toSecQ cur
      · obtain ⟨e, he⟩ :=
          awtLoop_atStart hbr hlt k (skipWeekends 1 7 (cur.day + 1)) rem (by linarith) hk'
        refine ⟨2 * k + 1, e, ?_⟩
        show awtBody s (awtLoop s (2 * k)) cur rem = some e
        unfold awtBody
        rw [if_neg h0, if_neg (awt_no_break_cond hbr _), if_neg hc3, if_pos hc4]
        exact he
      · by_cases hc5 : rem ≤ awtAvail s cur
        · refine ⟨1, addMinutesQ cur rem, ?_⟩
          show awtBody s (awtLoop s 0) cur rem = some _
          unfold awtBody
          rw [if_neg h0, if_neg (awt_no_break_cond hbr _), if_neg hc3, if_neg hc4, if_pos hc5]
        · have havail : awtAvail s cur =
              (toSecQ (combine cur.day (shiftEndM s)) - toSecQ cur) / 60 :=
            awtAvail_eq hbr hlt cur
          have h0' : 0 < rem - awtAvail s cur := by linarith [not_le.mp hc5]
          have hk2 : rem - awtAvail s cur ≤
              (k : ℚ) * ((shiftEndM s : ℚ) - (shiftStartM s : ℚ)) := by
            have hav : 0 < awtAvail s cur := by
              rw [havail]
              have hcur : toSecQ cur < toSecQ (awtShiftEnd s cur) := not_le.mp hc4
              rw [awtShiftEnd_eq hlt] at hcur
              linarith
            linarith
          obtain ⟨e, he⟩ :=
            awtLoop_atStart hbr hlt k (skipWeekends 1 7 (cur.day + 1)) _ h0' hk2
          refine ⟨2 * k + 2, e, ?_⟩
          show awtBody s (awtLoop s (2 * k + 1)) cur rem = some e
          unfold awtBody
          rw [if_neg h0, if_neg (awt_no_break_cond hbr _), if_neg hc3, if_neg hc4, if_neg hc5,
            awtBoundary_eq hbr hlt]
          show awtBody s (awtLoop s (2 * k)) (combine cur.day (shiftEndM s))
            (rem - awtAvail s cur) = some e
          have hday2 : (combine cur.day (shiftEndM s)).day = cur.day := rfl
          have hc3' : ¬(toSecQ (combine cur.day (shiftEndM s)) <
              toSecQ (combine (combine cur.day (shiftEndM s)).day (shiftStartM s))) := by
            rw [hday2, toSecQ_combine, toSecQ_combine]
            intro hltq
            have h1 : (shiftEndM s : ℚ) < (shiftStartM s : ℚ) := by linarith
            have h2 : shiftEndM s < shiftStartM s := by exact_mod_cast h1
            omega
          have hc4' : toSecQ (awtShiftEnd s (combine cur.day (shiftEndM s))) ≤
              toSecQ (combine cur.day (shiftEndM s)) := by
            rw [awtShiftEnd_eq hlt, hday2]
          unfold awtBody
          rw [if_neg (by linarith), if_neg (awt_no_break_cond hbr _), if_neg hc3', if_pos hc4',
            hday2]
          exact he

/-- Termination of `add_work_time` itself (loop plus buffer pass). -/
theorem add_work_time_succeeds {s : Shift} (hbr : s.breaks = [])
    (hlt : shiftStartM s < shiftEndM s) (start_dt : DT) (minutes buffer : ℚ) :
    ∃ f e, add_work_time start_dt minutes s buffer f = some e := by
  obtain ⟨f1, e1, h1⟩ := awtLoop_succeeds hbr hlt start_dt minutes
  by_cases hbuf : 0 < buffer
  · obtain ⟨f2, e2, h2⟩ := awtLoop_succeeds hbr hlt e1 buffer
    refine ⟨max f1 f2, e2, ?_⟩
    unfold add_work_time
    rw [awtLoop_mono h1 _ (le_max_left f1 f2)]
    simp only [Option.bind_eq_bind, Option.some_bind, if_pos hbuf]
    exact awtLoop_mono h2 _ (le_max_right f1 f2)
  · refine ⟨f1, e1, ?_⟩
    unfold add_work_time
    rw [h1]
    simp only [Option.bind_eq_bind, Option.some_bind, if_neg hbuf]
    rfl

/-- C8 (amended): the simulators are not total — with capacity resolving to
zero on every future date `calculate_job_dates` loops forever, and
`add_work_time` loops forever when a break covers the whole shift (see the
counterexample) — but they terminate on every configuration that makes
steady-state progress: when capacity on non-weekend days is bounded below by
a positive constant (equivalently, positive on every non-weekend day, since
capacities range over the finite override/shift/default values),
`calculate_job_dates` returns for some fuel; and `add_work_time` returns
whenever the shift has no breaks and a positive working window. -/
theorem claim_C8_amended (db : Db) (line_id : Nat) (hpd m : ℚ) (s : Shift)
    (start_dt : DT) (minutes buffer : ℚ)
    (hcap : CapBounded db line_id hpd m) (hbr : s.breaks = [])
    (hlt : shiftStartM s < shiftEndM s) :
    (∃ fuel res, calculate_job_dates db line_id hpd fuel = some res) ∧
    (∃ fuel e, add_work_time start_dt minutes s buffer fuel = some e) :=
  ⟨calculate_job_dates_succeeds hcap, add_work_time_succeeds hbr hlt start_dt minutes buffer⟩

/-- C8 witness: the same store as the counterexample but with the default
8 hours/day that the optimizer's call sites pass — now both simulators
terminate (shift 9:00–17:00, no breaks). -/
theorem claim_C8_witness :
    (∃ fuel res, calculate_job_dates cjdBadDb 1 8 fuel = some res) ∧
    (∃ fuel e, add_work_time ⟨0, 9, 0, 0⟩ 30
        ⟨1, some 540, some 1020, [1, 2, 3, 4, 5], true, []⟩ 15 fuel = some e) :=
  claim_C8_amended cjdBadDb 1 8 8 ⟨1, some 540, some 1020, [1, 2, 3, 4, 5], true, []⟩
    ⟨0, 9, 0, 0⟩ 30 15 ⟨by norm_num, fun d _ => le_of_eq rfl⟩ rfl
    (by norm_num [shiftStartM, shiftEndM])

/-! ### `optimizer.py`: the assignment optimizer -/

/-- `optimizer.get_schedulable_jobs`: incomplete, unlocked, not manually
scheduled, and physically in `SMT PRODUCTION`. -/
def get_schedulable_jobs (db : Db) : List WorkOrder :=
  db.jobs.filter fun j =>
    decide (j.is_complete = false ∧ j.is_locked = false ∧ j.is_manual_schedule = false ∧
      j.current_location = "SMT PRODUCTION")

/-- `optimizer.get_mci_line`: the dedicated line (`.first()`). -/
def get_mci_line (db : Db) : Option SMTLine :=
  db.lines.find? fun l =>
    decide (l.is_special_customer = true ∧ l.special_customer_name = some "MCI")

/-- `optimizer.get_general_lines`: active, not dedicated, not manual-only,
ordered by `order_position`. -/
def get_general_lines (db : Db) : List SMTLine :=
  pySorted (fun a b => decide (a.order_position < b.order_position))
    (db.lines.filter fun l =>
      decide (l.is_active = true ∧ l.is_special_customer = false ∧ l.is_manual_only = false))

/-- Mutation of the job with the given id (identity map on the rest);
SQLAlchemy object mutation becomes a by-id list map. -/
def updateJob (jobs : List WorkOrder) (id : Nat) (f : WorkOrder → WorkOrder) : List WorkOrder :=
  jobs.map fun j => if j.id = id then f j else j

/-- The capacity scan of `find_best_line_for_job` / the MCI branch of
`optimize_for_throughput`: some day in the estimated duration window
(`max 1 ⌈time/60/8⌉` days from `start`) resolves to zero capacity. -/
def capScanBad (db : Db) (job : WorkOrder) (line_id : Nat) (start : Int) : Bool :=
  (List.range (max 1 (math_ceil (job.time_minutes / 60 / 8)).toNat)).any fun day_offset =>
    decide (get_capacity_for_date db line_id (start + day_offset) 8 = 0)

/-- The per-job downtime test of `optimizer.move_jobs_off_down_lines`: the
job sits on this line, is incomplete and unlocked, carries both calculated
datetimes, and some day of its calculated span has zero capacity. -/
def jobDowntimeConflict (db : Db) (l : SMTLine) (j : WorkOrder) : Bool :=
  j.line_id == some l.id && j.is_complete == false && j.is_locked == false &&
    (match j.calculated_start_datetime, j.calculated_end_datetime with
     | some job_start, some job_end =>
        (List.range (job_end - job_start + 1).toNat).any fun k =>
          decide (get_capacity_for_date db l.id (job_start + k) 8 = 0)
     | _, _ => false)

/-- Clearing an evicted/re-pooled job's assignment. -/
def clearAssignment (j : WorkOrder) : WorkOrder :=
  { j with
      line_id := none
      line_position := none
      calculated_start_datetime := none
      calculated_end_datetime := none }

/-- `optimizer.move_jobs_off_down_lines`: evict jobs scheduled during line
downtime (line-major order) and return them for re-pooling. -/
def move_jobs_off_down_lines (db : Db) (general_lines : List SMTLine)
    (mci_line : Option SMTLine) : Db × List Nat :=
  let all_lines := general_lines ++ (match mci_line with | some m => [m] | none => [])
  let movedIds := all_lines.flatMap fun l =>
    (db.jobs.filter (jobDowntimeConflict db l)).map (·.id)
  ({ db with jobs := db.jobs.map fun j =>
      if all_lines.any (fun l => jobDowntimeConflict db l j) then clearAssignment j else j },
   movedIds)

/-- `optimizer.calculate_earliest_completion_dates` on the collected jobs:
skip jobs without `min_start_date` or with falsy (`0`) `time_minutes`;
otherwise business-day-add `total/480` days (Line-1 doubling applies when the
job is currently assigned there) onto `min_start_date`. Commits even in dry
runs. -/
def calculate_earliest_completion_dates (db : Db) (ids : List Nat) : Db :=
  ids.foldl (fun d id =>
    { d with jobs := updateJob d.jobs id fun j =>
        if j.min_start_date = none ∨ j.time_minutes = 0 then j
        else
          let mult : ℚ := if (match j.line_id with
            | some lid => lineName d lid
            | none => none) = some "1-EURO 264" then 2 else 1
          let total_minutes := (j.time_minutes + j.setup_time_hours * 60) * mult
          let days_needed := total_minutes / (8 * 60)
          { j with
              earliest_completion_date :=
                some (add_business_days (j.min_start_date.getD 0) days_needed) } }) db

/-- The running per-line snapshot (`line_loads` entries) of the
optimizer. -/
structure LineLoad where
  job_count : Nat
  total_hours : ℚ
  positions_used : Nat
  trolleys_in_p1_p2 : Nat
  completion_date : Int
  deriving Repr, DecidableEq

/-- `line_loads[line_id]`; the Python dict always contains the key at every
use site (the loads are seeded for every line before the loop), so the
default is unreachable there. -/
def lookupLoad (loads : List (Nat × LineLoad)) (line_id : Nat) : LineLoad :=
  ((loads.find? fun p => p.1 == line_id).map (·.2)).getD ⟨0, 0, 0, 0, 0⟩

/-- In-place mutation of one line's snapshot. -/
def updateLoads (loads : List (Nat × LineLoad)) (line_id : Nat)
    (f : LineLoad → LineLoad) : List (Nat × LineLoad) :=
  loads.map fun p => if p.1 = line_id then (p.1, f p.2) else p

/-- `optimizer.get_line_current_load`: queue statistics plus the projected
completion date from the date-level simulator (which is why it carries
fuel). -/
def get_line_current_load (db : Db) (line_id : Nat) (fuel : Nat) : Option LineLoad :=
  let jobs := jobsOnLine db line_id
  if jobs = [] then some ⟨0, 0, 0, 0, db.today⟩
  else
    let total_minutes := (jobs.map fun j => j.time_minutes + j.setup_time_hours * 60).sum
    let total_minutes := if lineName db line_id = some "1-EURO 264" then total_minutes * 2
      else total_minutes
    let total_hours := total_minutes / 60
    let trolleys_p1_p2 := ((jobs.filter fun j =>
      j.line_position == some 1 || j.line_position == some 2).map (·.trolley_count)).sum
    let positions_used := (jobs.filterMap (·.line_position)).foldl max 0
    match calculate_job_dates db line_id 8 fuel with
    | none => none
    | some job_dates =>
        let completion_date := match job_dates.map (fun t => t.2.2) with
          | [] => db.today
          | x :: xs => xs.foldl max x
        some ⟨jobs.length, total_hours, positions_used, trolleys_p1_p2, completion_date⟩

/-- The trolley-limit skip of `find_best_line_for_job`: appending here would
be position 1 or 2 and push the front-of-queue trolley sum over 24. -/
def trolleySkip (job : WorkOrder) (load : LineLoad) : Bool :=
  decide (load.positions_used + 1 ≤ 2) && decide (24 < load.trolleys_in_p1_p2 + job.trolley_count)

/-- The capacity skip of `find_best_line_for_job`: projected completion not
in the past, and some day of the estimated window has zero capacity. -/
def capacitySkip (db : Db) (job : WorkOrder) (l : SMTLine) (load : LineLoad) : Bool :=
  decide (db.today ≤ load.completion_date) && capScanBad db job l.id load.completion_date

/-- A line survives neither of `find_best_line_for_job`'s `continue`s. -/
def lineSkipped (db : Db) (job : WorkOrder) (loads : List (Nat × LineLoad)) (l : SMTLine) : Bool :=
  trolleySkip job (lookupLoad loads l.id) || capacitySkip db job l (lookupLoad loads l.id)

/-- The candidate loop of `find_best_line_for_job`, threading
`(best_line, best_position, earliest_completion)`. -/
def fbLoop (db : Db) (job : WorkOrder) (loads : List (Nat × LineLoad)) (mode : String) :
    List SMTLine → Option (Nat × Nat × Int) → Option (Nat × Nat × Int)
  | [], best => best
  | l :: rest, best =>
      let load := lookupLoad loads l.id
      let proposed_position := load.positions_used + 1
      if trolleySkip job load then fbLoop db job loads mode rest best
      else if capacitySkip db job l load then fbLoop db job loads mode rest best
      else
        let line_completion := load.completion_date
        match best with
        | none => fbLoop db job loads mode rest (some (l.id, proposed_position, line_completion))
        | some (best_line, best_position, earliest_completion) =>
            if mode = "balanced" then
              if load.job_count < (lookupLoad loads best_line).job_count then
                fbLoop db job loads mode rest (some (l.id, proposed_position, line_completion))
              else if load.job_count = (lookupLoad loads best_line).job_count ∧
                  line_completion < earliest_completion then
                fbLoop db job loads mode rest (some (l.id, proposed_position, line_completion))
              else fbLoop db job loads mode rest (some (best_line, best_position, earliest_completion))
            else if line_completion < earliest_completion then
              fbLoop db job loads mode rest (some (l.id, proposed_position, line_completion))
            else fbLoop db job loads mode rest (some (best_line, best_position, earliest_completion))

/-- `optimizer.find_best_line_for_job`: the candidate loop, then the
unchecked fallback — `general_lines[0]` at its end of queue, with no trolley
or capacity test (`none` models the `IndexError` when no general line
exists). -/
def find_best_line_for_job (db : Db) (job : WorkOrder) (general_lines : List SMTLine)
    (loads : List (Nat × LineLoad)) (mode : String) : Option (Nat × Nat) :=
  match fbLoop db job loads mode general_lines none with
  | some (best_line, best_position, _) => some (best_line, best_position)
  | none =>
      match general_lines with
      | [] => none
      | g0 :: _ => some (g0.id, (lookupLoad loads g0.id).positions_used + 1)

/-- `session.query(WorkOrder).filter(id == job_id).first()`; ids are unique
in any real store, the default is the missing-row placeholder. -/
def lookupJob (db : Db) (id : Nat) : WorkOrder :=
  ((db.jobs.find? fun j => j.id == id)).getD woDefault

/-- One entry of the optimizer's `changes` list. -/
structure Change where
  job_id : Nat
  old_line_id : Option Nat
  new_line_id : Nat
  old_position : Option Nat
  new_position : Nat
  deriving Repr, DecidableEq

/-- The job write of assignment step 5 (`work_order.line_id = ...`,
`work_order.line_position = ...`), suppressed on dry runs. -/
def assignWrite (db : Db) (id : Nat) (dry_run : Bool) (new_line_id new_position : Nat) : Db :=
  if dry_run then db
  else { db with jobs := updateJob db.jobs id fun j =>
    { j with
        line_id := some new_line_id
        line_position := some new_position } }

/-- Step 5 of `optimize_for_throughput`: assign each collected job in rank
order — MCI jobs to the MCI line when its window has capacity, everything
else through `find_best_line_for_job` — recording changes and updating the
line-load snapshot (job writes suppressed on dry runs, snapshot updates
not). -/
def assignLoop (mci_line : Option SMTLine) (general_lines : List SMTLine) (mode : String)
    (dry_run : Bool) :
    List Nat → Db → List (Nat × LineLoad) → List Change →
      Option (Db × List (Nat × LineLoad) × List Change)
  | [], db, loads, changes => some (db, loads, changes)
  | id :: rest, db, loads, changes =>
      let job := lookupJob db id
      let old_line_id := job.line_id
      let old_position := job.line_position
      let assigned : Option (Nat × Nat) :=
        match mci_line with
        | some m =>
            if is_mci_job job then
              let load := lookupLoad loads m.id
              let line_completion := load.completion_date
              if db.today ≤ line_completion then
                if capScanBad db job m.id line_completion then
                  find_best_line_for_job db job general_lines loads mode
                else some (m.id, load.positions_used + 1)
              else some (m.id, load.positions_used + 1)
            else find_best_line_for_job db job general_lines loads mode
        | none => find_best_line_for_job db job general_lines loads mode
      match assigned with
      | none => none
      | some (new_line_id, new_position) =>
          let db' := assignWrite db id dry_run new_line_id new_position
          let changes' :=
            if old_line_id ≠ some new_line_id ∨ old_position ≠ some new_position then
              changes ++ [⟨id, old_line_id, new_line_id, old_position, new_position⟩]
            else changes
          let job_time_hours := ((job.time_minutes + job.setup_time_hours * 60) / 60) *
            (if lineName db new_line_id = some "1-EURO 264" then 2 else 1)
          let loads' := updateLoads loads new_line_id fun ld =>
            { ld with
                positions_used := new_position
                trolleys_in_p1_p2 := ld.trolleys_in_p1_p2 +
                  (if new_position ≤ 2 then job.trolley_count else 0)
                total_hours := ld.total_hours + job_time_hours
                completion_date := add_business_days ld.completion_date (job_time_hours / 8) }
          assignLoop mci_line general_lines mode dry_run rest db' loads' changes'

/-- Seeding of `line_loads` (general lines first, then the MCI line). -/
def initLoads (db : Db) (fuel : Nat) : List SMTLine → Option (List (Nat × LineLoad))
  | [] => some []
  | l :: rest =>
      match get_line_current_load db l.id fuel with
      | none => none
      | some load =>
          match initLoads db fuel rest with
          | none => none
          | some tail => some ((l.id, load) :: tail)

/-- The job write of materialization step 6: scheduled dates from the
simulator result, then the recomputed variance. -/
def matWrite (d : Db) (t : Nat × Int × Int) : Db :=
  { d with jobs := updateJob d.jobs t.1 fun j =>
      let j' := { j with
        scheduled_start_date := some t.2.1
        scheduled_end_date := some t.2.2 }
      { j' with promise_date_variance_days := calculate_promise_date_variance j' } }

/-- Step 6 of `optimize_for_throughput`: per line, run the date-level
simulator and (unless dry) write scheduled dates plus the recomputed
variance onto each mapped job. The simulator runs even on dry runs. -/
def materialize (dry_run : Bool) (fuel : Nat) : Db → List SMTLine → Option Db
  | db, [] => some db
  | db, l :: rest =>
      match calculate_job_dates db l.id 8 fuel with
      | none => none
      | some job_dates =>
          let db' := if dry_run then db else job_dates.foldl matWrite db
          materialize dry_run fuel db' rest

/-- Step 6b of `optimize_for_throughput`: refresh the variance of every
incomplete job that has a scheduled end date. -/
def update_all_variances (db : Db) : Db :=
  { db with jobs := db.jobs.map fun j =>
      if j.is_complete = false ∧ j.scheduled_end_date ≠ none then
        { j with promise_date_variance_days := calculate_promise_date_variance j }
      else j }

/-- Python's `round(x, 2)`. -/
def py_round2 (q : ℚ) : ℚ := (py_round (q * 100) : ℚ) / 100

/-- The optimizer's run report (`line_assignments` keeps name, job count,
rounded hours and completion; `trolley_utilization` keeps name, positions-1/2
trolley sum, and the `exceeds_limit` flag). -/
structure Report where
  jobs_scheduled : Nat
  jobs_at_risk : List Nat
  jobs_will_be_late : List Nat
  line_assignments : List (String × Nat × ℚ × Int)
  trolley_utilization : List (String × Nat × Bool)
  changes : List Change
  deriving Repr, DecidableEq

/-- `optimizer.optimize_for_throughput(session, mode, dry_run,
clear_existing)` — the engine behind `run_assignment`.  Collect schedulable
jobs, evict jobs on down lines, optionally clear-and-repool (never on dry
runs), early-return on an empty pool, compute earliest completions, sort by
(priority rank, promise date), seed line loads, assign in order, materialize
dates, refresh variances, and report.  `none` models a run that never
returns (simulator divergence) or the fallback `IndexError` with no general
lines. -/
def optimize_for_throughput (db : Db) (mode : String) (dry_run clear_existing : Bool)
    (fuel : Nat) : Option (Db × Report) :=
  let ids0 := (get_schedulable_jobs db).map (·.id)
  let general_lines := get_general_lines db
  let mci_line := get_mci_line db
  let moved := move_jobs_off_down_lines db general_lines mci_line
  let db1 := moved.1
  let ids1 := ids0 ++ moved.2
  let cleared :=
    if clear_existing = true ∧ dry_run = false then
      let clearPred := fun (j : WorkOrder) =>
        decide (j.line_id ≠ none ∧ j.is_complete = false ∧ j.is_locked = false)
      ({ db1 with jobs := db1.jobs.map fun j => if clearPred j then clearAssignment j else j },
       ids1 ++ (db1.jobs.filter clearPred).map (·.id))
    else (db1, ids1)
  let db2 := cleared.1
  let ids := cleared.2
  if ids = [] then some (db2, ⟨0, [], [], [], [], []⟩)
  else
    let db3 := calculate_earliest_completion_dates db2 ids
    let sortKey := fun (id : Nat) =>
      (get_priority_rank (lookupJob db3 id), (lookupJob db3 id).cetec_ship_date.getD db3.today)
    let sorted_ids := pySorted (fun a b =>
      decide ((sortKey a).1 < (sortKey b).1 ∨
        ((sortKey a).1 = (sortKey b).1 ∧ (sortKey a).2 < (sortKey b).2))) ids
    let all_lines := general_lines ++ (match mci_line with | some m => [m] | none => [])
    match initLoads db3 fuel all_lines with
    | none => none
    | some loads0 =>
        match assignLoop mci_line general_lines mode dry_run sorted_ids db3 loads0 [] with
        | none => none
        | some (db4, loads, changes) =>
            match materialize dry_run fuel db4 all_lines with
            | none => none
            | some db5 =>
                let db6 := if dry_run then db5 else update_all_variances db5
                some (db6,
                  { jobs_scheduled := ids.length
                    jobs_at_risk := ids.filter fun id => is_at_risk (lookupJob db6 id)
                    jobs_will_be_late := ids.filter fun id => will_be_late (lookupJob db6 id)
                    line_assignments := all_lines.map fun l =>
                      (l.name, (lookupLoad loads l.id).job_count,
                        py_round2 (lookupLoad loads l.id).total_hours,
                        (lookupLoad loads l.id).completion_date)
                    trolley_utilization := all_lines.map fun l =>
                      (l.name, (lookupLoad loads l.id).trolleys_in_p1_p2,
                        decide (24 < (lookupLoad loads l.id).trolleys_in_p1_p2))
                    changes := if dry_run then changes else [] })

/-- The positions-{1,2} trolley sum of a line, read back from the store. -/
def trolleySumP12 (db : Db) (line_id : Nat) : Nat :=
  ((db.jobs.filter fun j =>
    decide (j.line_id = some line_id ∧ j.is_complete = false ∧
      (j.line_position = some 1 ∨ j.line_position = some 2))).map (·.trolley_count)).sum

/-! ### Claims C1, C3, C4, C5 -/

/-- A single general line. -/
def exLine : SMTLine := ⟨1, "L2", 8, true, false, none, false, 1⟩

/-- A schedulable job: 480 minutes, promise day 10, given trolley count. -/
def exJob (i trolleys : Nat) : WorkOrder :=
  { woDefault with
      id := i
      customer := "ACME"
      current_location := "SMT PRODUCTION"
      cetec_ship_date := some 10
      min_start_date := some 0
      time_minutes := 480
      trolley_count := trolleys }

/-- One schedulable 4-trolley job on one line. -/
def exDb1 : Db := ⟨[exJob 1 4], [exLine], [], [], 0⟩

/-- Two schedulable 20-trolley jobs on one line. -/
def exDb2 : Db := ⟨[exJob 1 20, exJob 2 20], [exLine], [], [], 0⟩

/-- One schedulable 30-trolley job (no line can take it) on one line. -/
def exDb3 : Db := ⟨[exJob 1 30], [exLine], [], [], 0⟩

/-- C1 (code bug): two 20-trolley jobs on a single line — the first is
placed normally at position 1, the second is skipped by the trolley check
but then assigned to position 2 anyway through the unchecked
`general_lines[0]` fallback, leaving a positions-{1,2} trolley sum of 40;
the run's own report flags `exceeds_limit`.  This contradicts the module's
stated "24 max in positions 1+2" constraint (and its tests). -/
theorem claim_C1 :
    (optimize_for_throughput exDb2 "balanced" false false 20).map
        (fun p => (trolleySumP12 p.1 1, p.2.trolley_utilization)) =
      some (40, [("L2", 40, true)]) ∧ 24 < 40 := by
  constructor
  · with_unfolding_all decide
  · norm_num

/-- C3, counterexample: one job, two consecutive `run_assignment` calls with
unchanged data.  The first run assigns position 1; the second run re-appends
the already-assigned job after itself at `positions_used + 1 = 2`.  The
second run is not an empty diff: the job's queue position changes. -/
theorem claim_C3_counterexample :
    (optimize_for_throughput exDb1 "balanced" false false 20).map
        (fun p => p.1.jobs.map (·.line_position)) = some [some 1] ∧
    ((optimize_for_throughput exDb1 "balanced" false false 20).bind
        (fun p => optimize_for_throughput p.1 "balanced" false false 20)).map
        (fun p => p.1.jobs.map (·.line_position)) = some [some 2] := by
  constructor
  · with_unfolding_all decide
  · with_unfolding_all decide

/-- C4 (code bug): a `dry_run = true` call still writes (and commits)
`earliest_completion_date` — here it flips from `none` to `some 1` — while
the assignment and scheduled-date fields are indeed left untouched. -/
theorem claim_C4 :
    (optimize_for_throughput exDb1 "balanced" true false 20).map
        (fun p => p.1.jobs.map fun j =>
          (j.earliest_completion_date, j.line_id, j.line_position, j.scheduled_start_date)) =
      some [(some 1, none, none, none)] ∧
    exDb1.jobs.map (·.earliest_completion_date) = [none] := by
  constructor
  · with_unfolding_all decide
  · with_unfolding_all decide

/-- C5, counterexample: a 30-trolley job no line can accept is *not* left
unassigned — the fallback of `find_best_line_for_job` assigns it to the
first general line at the end of its queue. -/
theorem claim_C5_counterexample :
    (optimize_for_throughput exDb3 "balanced" false false 20).map
        (fun p => p.1.jobs.map (·.line_id)) = some [some 1] ∧
    exDb3.jobs.map (·.line_id) = [none] := by
  constructor
  · with_unfolding_all decide
  · with_unfolding_all decide

theorem fbLoop_none_of_all_skipped (db : Db) (job : WorkOrder)
    (loads : List (Nat × LineLoad)) (mode : String) :
    ∀ lines : List SMTLine, (∀ l ∈ lines, lineSkipped db job loads l = true) →
      fbLoop db job loads mode lines none = none := by
  intro lines
  induction lines with
  | nil => intro _; rfl
  | cons l rest ih =>
      intro hall
      have hl := hall l (by simp)
      rw [lineSkipped, Bool.or_eq_true] at hl
      unfold fbLoop
      rcases hl with h | h
      · rw [if_pos h]
        exact ih fun x hx => hall x (by simp [hx])
      · by_cases ht : trolleySkip job (lookupLoad loads l.id) = true
        · rw [if_pos ht]
          exact ih fun x hx => hall x (by simp [hx])
        · rw [if_neg (by simpa using ht), if_pos h]
          exact ih fun x hx => hall x (by simp [hx])

/-- C5 (amended): when every general line is skipped by the trolley-limit or
zero-capacity checks, the job is *not* left unassigned — the fallback
assigns it to the first general line at `positions_used + 1` (unchecked);
the run continues normally.  (With no general line at all, the source raises
`IndexError` instead, modelled by `none`.) -/
theorem claim_C5_amended (db : Db) (job : WorkOrder) (loads : List (Nat × LineLoad))
    (mode : String) (g0 : SMTLine) (rest : List SMTLine)
    (hall : ∀ l ∈ g0 :: rest, lineSkipped db job loads l = true) :
    find_best_line_for_job db job (g0 :: rest) loads mode =
      some (g0.id, (lookupLoad loads g0.id).positions_used + 1) := by
  unfold find_best_line_for_job
  rw [fbLoop_none_of_all_skipped db job loads mode (g0 :: rest) hall]

/-- C5 witness: the 30-trolley job against the single fresh line — skipped
by the trolley check, assigned to that line's position 1 by the fallback. -/
theorem claim_C5_witness :
    find_best_line_for_job exDb3 (exJob 1 30) [exLine] [(1, ⟨0, 0, 0, 0, 0⟩)] "balanced" =
      some (1, 1) :=
  claim_C5_amended exDb3 (exJob 1 30) [(1, ⟨0, 0, 0, 0, 0⟩)] "balanced" exLine []
    (by intro l hl; simp at hl; subst hl; with_unfolding_all decide)

theorem moveAux_noop (db : Db) (lines : List SMTLine)
    (h : (lines.flatMap fun l => (db.jobs.filter (jobDowntimeConflict db l)).map (·.id)) = []) :
    (db.jobs.map fun j =>
      if lines.any (fun l => jobDowntimeConflict db l j) then clearAssignment j else j)
      = db.jobs := by
  have hnc : ∀ j ∈ db.jobs, (lines.any fun l => jobDowntimeConflict db l j) = false := by
    intro j hj
    rw [List.any_eq_false]
    intro l hl hc
    have hmem : j.id ∈ lines.flatMap fun l =>
        (db.jobs.filter (jobDowntimeConflict db l)).map (·.id) := by
      rw [List.mem_flatMap]
      exact ⟨l, hl, List.mem_map.mpr ⟨j, List.mem_filter.mpr ⟨hj, hc⟩, rfl⟩⟩
    rw [h] at hmem
    exact absurd hmem (List.not_mem_nil _)
  calc (db.jobs.map fun j =>
        if lines.any (fun l => jobDowntimeConflict db l j) then clearAssignment j else j)
      = db.jobs.map id := List.map_congr_left fun j hj => by rw [hnc j hj]; rfl
    _ = db.jobs := List.map_id _

theorem move_jobs_noop (db : Db) (general_lines : List SMTLine) (mci_line : Option SMTLine)
    (h : (move_jobs_off_down_lines db general_lines mci_line).2 = []) :
    move_jobs_off_down_lines db general_lines mci_line = (db, []) := by
  unfold move_jobs_off_down_lines at h ⊢
  dsimp only at h ⊢
  rw [moveAux_noop db _ h, h]

/-- C3 (amended): re-running is a no-op only vacuously.  A run that collects
no jobs — none schedulable, none evicted off down lines, and
`clear_existing = false` — returns the store unchanged with an all-empty
report; any assignable job, by contrast, is re-appended at
`positions_used + 1` on a second run, changing its position (see the
counterexample), and a non-dry run's reported `changes` list is `[]` by
construction regardless. -/
theorem claim_C3_amended (db : Db) (mode : String) (dry_run : Bool) (fuel : Nat)
    (hsched : get_schedulable_jobs db = [])
    (hmoved : (move_jobs_off_down_lines db (get_general_lines db) (get_mci_line db)).2 = []) :
    optimize_for_throughput db mode dry_run false fuel =
      some (db, ⟨0, [], [], [], [], []⟩) := by
  have hmv := move_jobs_noop db (get_general_lines db) (get_mci_line db) hmoved
  simp only [optimize_for_throughput, hsched, hmv, List.map_nil, List.nil_append,
    List.append_nil]
  simp

/-- C3 witness: a store holding only a locked job collects nothing, so a run
(hence also a second run) leaves it untouched with an empty diff. -/
theorem claim_C3_witness :
    optimize_for_throughput
      ⟨[{ exJob 1 4 with is_locked := true }], [exLine], [], [], 0⟩ "balanced" false false 20 =
      some (⟨[{ exJob 1 4 with is_locked := true }], [exLine], [], [], 0⟩,
        ⟨0, [], [], [], [], []⟩) :=
  claim_C3_amended ⟨[{ exJob 1 4 with is_locked := true }], [exLine], [], [], 0⟩
    "balanced" false 20 (by with_unfolding_all decide) (by with_unfolding_all decide)

/-! ### Claim C2: locked jobs across an optimizer run -/

/-- The fields the lock claim protects, plus the identity flags that keep
the passes honest: id, locked/complete flags, line, position, calculated
datetimes, scheduled dates. -/
def lockCore (j : WorkOrder) :
    Nat × Bool × Bool × Option Nat × Option Nat × Option Int × Option Int ×
      Option Int × Option Int :=
  (j.id, j.is_locked, j.is_complete, j.line_id, j.line_position,
   j.calculated_start_datetime, j.calculated_end_datetime,
   j.scheduled_start_date, j.scheduled_end_date)

/-- A store update preserves the id column and the `i`-th job's protected
core. -/
def Keeps (jobs jobs' : List WorkOrder) (i : Nat) : Prop :=
  jobs'.map WorkOrder.id = jobs.map WorkOrder.id ∧
  jobs'[i]?.map lockCore = jobs[i]?.map lockCore

theorem keeps_refl (jobs : List WorkOrder) (i : Nat) : Keeps jobs jobs i := ⟨rfl, rfl⟩

theorem keeps_trans {a b c : List WorkOrder} {i : Nat} (h1 : Keeps a b i)
    (h2 : Keeps b c i) : Keeps a c i := ⟨h2.1.trans h1.1, h2.2.trans h1.2⟩

theorem lockCore_eq_iff (a b : WorkOrder) :
    lockCore a = lockCore b ↔
      a.id = b.id ∧ a.is_locked = b.is_locked ∧ a.is_complete = b.is_complete ∧
      a.line_id = b.line_id ∧ a.line_position = b.line_position ∧
      a.calculated_start_datetime = b.calculated_start_datetime ∧
      a.calculated_end_datetime = b.calculated_end_datetime ∧
      a.scheduled_start_date = b.scheduled_start_date ∧
      a.scheduled_end_date = b.scheduled_end_date := by
  simp [lockCore, Prod.ext_iff]

theorem keeps_id_of {jobs jobs' : List WorkOrder} {i : Nat} (h : Keeps jobs jobs' i) :
    ∀ j', jobs'[i]? = some j' → ∃ j, jobs[i]? = some j ∧ lockCore j' = lockCore j := by
  intro j' hj'
  have h2 := h.2
  rw [hj'] at h2
  cases hj : jobs[i]? with
  | none => rw [hj] at h2; simp at h2
  | some j =>
      rw [hj] at h2
      simp only [Option.map_some'] at h2
      exact ⟨j, rfl, Option.some.inj h2⟩

theorem keeps_map (jobs : List WorkOrder) (f : WorkOrder → WorkOrder) (i : Nat)
    (hid : ∀ j, (f j).id = j.id)
    (hcore : ∀ j, jobs[i]? = some j → lockCore (f j) = lockCore j) :
    Keeps jobs (jobs.map f) i := by
  constructor
  · rw [List.map_map]
    exact List.map_congr_left fun j _ => hid j
  · rw [List.getElem?_map]
    cases hj : jobs[i]? with
    | none => rfl
    | some j => simp [hcore j hj]

theorem updateJob_keeps (jobs : List WorkOrder) (id0 : Nat) (f : WorkOrder → WorkOrder)
    (i : Nat) (hid : ∀ j, (f j).id = j.id)
    (hcore : ∀ j, jobs[i]? = some j → j.id = id0 → lockCore (f j) = lockCore j) :
    Keeps jobs (updateJob jobs id0 f) i := by
  unfold updateJob
  apply keeps_map
  · intro j
    by_cases h : j.id = id0
    · rw [if_pos h, hid j]
    · rw [if_neg h]
  · intro j hj
    by_cases h : j.id = id0
    · rw [if_pos h]
      exact hcore j hj h
    · rw [if_neg h]

/-- Pass 1 (`move_jobs_off_down_lines`): a locked job fails
`jobDowntimeConflict`, so nothing at index `i` moves; other jobs keep their
ids. -/
theorem move_map_keeps (db : Db) (lines : List SMTLine) (i : Nat)
    (hlock : ∀ j, db.jobs[i]? = some j → j.is_locked = true) :
    Keeps db.jobs (db.jobs.map fun j =>
      if lines.any (fun l => jobDowntimeConflict db l j) then clearAssignment j else j) i := by
  apply keeps_map
  · intro j
    by_cases h : (lines.any fun l => jobDowntimeConflict db l j) = true
    · rw [if_pos h]; rfl
    · rw [if_neg h]
  · intro j hj
    have hfalse : (lines.any fun l => jobDowntimeConflict db l j) = false := by
      rw [List.any_eq_false]
      intro l _
      unfold jobDowntimeConflict
      rw [hlock j hj]
      simp
    rw [if_neg (by simp [hfalse])]

theorem move_keeps (db : Db) (gl : List SMTLine) (mci : Option SMTLine) (i : Nat)
    (hlock : ∀ j, db.jobs[i]? = some j → j.is_locked = true) :
    Keeps db.jobs (move_jobs_off_down_lines db gl mci).1.jobs i := by
  unfold move_jobs_off_down_lines
  exact move_map_keeps db _ i hlock

/-- The `clear_existing` re-pool pass: its predicate demands
`is_locked = false`. -/
theorem clear_map_keeps (jobs : List WorkOrder) (i : Nat)
    (hlock : ∀ j, jobs[i]? = some j → j.is_locked = true) :
    Keeps jobs (jobs.map fun j =>
      if decide (j.line_id ≠ none ∧ j.is_complete = false ∧ j.is_locked = false) then
        clearAssignment j else j) i := by
  apply keeps_map
  · intro j
    by_cases h : decide (j.line_id ≠ none ∧ j.is_complete = false ∧ j.is_locked = false) = true
    · rw [if_pos h]; rfl
    · rw [if_neg h]
  · intro j hj
    rw [if_neg (by simp [hlock j hj])]

theorem foldl_keeps (i : Nat) (step : Db → Nat → Db)
    (hstep : ∀ db id0, Keeps db.jobs (step db id0).jobs i) :
    ∀ (ids : List Nat) (db : Db), Keeps db.jobs (ids.foldl step db).jobs i := by
  intro ids
  induction ids with
  | nil => intro db; exact keeps_refl db.jobs i
  | cons id0 rest ih => intro db; exact keeps_trans (hstep db id0) (ih (step db id0))

/-- Pass 4 (`calculate_earliest_completion_dates`): only
`earliest_completion_date` is written, never a protected field. -/
theorem calcEarliest_keeps (i : Nat) (db : Db) (ids : List Nat) :
    Keeps db.jobs (calculate_earliest_completion_dates db ids).jobs i := by
  unfold calculate_earliest_completion_dates
  apply foldl_keeps
  intro d id0
  apply updateJob_keeps
  · intro j
    by_cases h : j.min_start_date = none ∨ j.time_minutes = 0
    · rw [if_pos h]
    · rw [if_neg h]
      try rfl
  · intro j _ _
    by_cases h : j.min_start_date = none ∨ j.time_minutes = 0
    · rw [if_pos h]
    · rw [if_neg h]
      try rfl

/-- Pass 7 (`update_all_variances`): only the variance field is written. -/
theorem variances_keeps (db : Db) (i : Nat) :
    Keeps db.jobs (update_all_variances db).jobs i := by
  unfold update_all_variances
  apply keeps_map
  · intro j
    by_cases h : j.is_complete = false ∧ j.scheduled_end_date ≠ none
    · rw [if_pos h]
      try rfl
    · rw [if_neg h]
  · intro j _
    by_cases h : j.is_complete = false ∧ j.scheduled_end_date ≠ none
    · rw [if_pos h]
      try rfl
    · rw [if_neg h]

theorem keeps_lock {jobs jobs' : List WorkOrder} {i : Nat} (hK : Keeps jobs jobs' i)
    (hlock : ∀ j, jobs[i]? = some j → j.is_locked = true) :
    ∀ j', jobs'[i]? = some j' → j'.is_locked = true := by
  intro j' hj'
  obtain ⟨j, hj, hcore⟩ := keeps_id_of hK j' hj'
  exact (((lockCore_eq_iff j' j).mp hcore).2.1).trans (hlock j hj)

theorem keeps_id_eq {jobs jobs' : List WorkOrder} {i : Nat} (hK : Keeps jobs jobs' i) :
    ∀ j', jobs'[i]? = some j' → ∃ j, jobs[i]? = some j ∧ j'.id = j.id := by
  intro j' hj'
  obtain ⟨j, hj, hcore⟩ := keeps_id_of hK j' hj'
  exact ⟨j, hj, ((lockCore_eq_iff j' j).mp hcore).1⟩

theorem keeps_shape {jobs jobs' : List WorkOrder} {i : Nat} {s e : Int}
    (hK : Keeps jobs jobs' i)
    (hshape : ∀ j, jobs[i]? = some j → j.is_locked = true ∧
      j.calculated_start_datetime = some s ∧ j.calculated_end_datetime = some e ∧
      j.scheduled_start_date = some s ∧ j.scheduled_end_date = some e) :
    ∀ j', jobs'[i]? = some j' → j'.is_locked = true ∧
      j'.calculated_start_datetime = some s ∧ j'.calculated_end_datetime = some e ∧
      j'.scheduled_start_date = some s ∧ j'.scheduled_end_date = some e := by
  intro j' hj'
  obtain ⟨j, hj, hcore⟩ := keeps_id_of hK j' hj'
  rw [lockCore_eq_iff] at hcore
  obtain ⟨_, h2, _, _, _, h6, h7, h8, h9⟩ := hcore
  obtain ⟨a1, a2, a3, a4, a5⟩ := hshape j hj
  exact ⟨h2.trans a1, h6.trans a2, h7.trans a3, h8.trans a4, h9.trans a5⟩

/-- Two jobs of a duplicate-free table with the same id are the same row. -/
theorem nodup_id_unique {jobs : List WorkOrder} (hnd : (jobs.map WorkOrder.id).Nodup)
    {i : Nat} {j job : WorkOrder} (hj : jobs[i]? = some j) (hmem : job ∈ jobs)
    (hid : job.id = j.id) : job = j :=
  List.inj_on_of_nodup_map hnd hmem (List.getElem?_mem hj) hid

/-- Pass 5 (`assignLoop`): the per-job write, suppressed on dry runs, only
touches the job carrying the assigned id. -/
theorem assignWrite_keeps (db : Db) (id0 : Nat) (dry : Bool) (nl np : Nat) (i : Nat)
    (hne : ∀ j, db.jobs[i]? = some j → j.id ≠ id0) :
    Keeps db.jobs (assignWrite db id0 dry nl np).jobs i := by
  unfold assignWrite
  by_cases hd : dry = true
  · rw [if_pos hd]
    exact keeps_refl db.jobs i
  · rw [if_neg hd]
    exact updateJob_keeps db.jobs id0 _ i (fun j => rfl)
      (fun j hj hid => absurd hid (hne j hj))

theorem assignLoop_keeps (mci : Option SMTLine) (gl : List SMTLine) (mode : String)
    (dry : Bool) (i : Nat) :
    ∀ (ids : List Nat) (db : Db) (loads : List (Nat × LineLoad)) (changes : List Change)
      (res : Db × List (Nat × LineLoad) × List Change),
      assignLoop mci gl mode dry ids db loads changes = some res →
      (∀ j, db.jobs[i]? = some j → ∀ id0 ∈ ids, j.id ≠ id0) →
      Keeps db.jobs res.1.jobs i := by
  intro ids
  induction ids with
  | nil =>
      intro db loads changes res h _
      unfold assignLoop at h
      obtain rfl := Option.some.inj h
      exact keeps_refl db.jobs i
  | cons id0 rest ih =>
      intro db loads changes res h hids
      unfold assignLoop at h
      dsimp only at h
      have key : ∀ (assigned : Option (Nat × Nat))
          (lf : Nat → Nat → List (Nat × LineLoad)) (cf : Nat → Nat → List Change),
          (match assigned with
           | none => none
           | some (nl, np) =>
               assignLoop mci gl mode dry rest (assignWrite db id0 dry nl np) (lf nl np)
                 (cf nl np)) = some res →
          Keeps db.jobs res.1.jobs i := by
        intro assigned lf cf hm
        cases assigned with
        | none => exact absurd hm (by simp)
        | some pr =>
            obtain ⟨nl, np⟩ := pr
            have hstep := assignWrite_keeps db id0 dry nl np i
              (fun j hj => hids j hj id0 (List.mem_cons_self id0 rest))
            refine keeps_trans hstep
              (ih (assignWrite db id0 dry nl np) (lf nl np) (cf nl np) res hm ?_)
            intro j' hj' x hx
            obtain ⟨j, hj, hidj⟩ := keeps_id_eq hstep j' hj'
            rw [hidj]
            exact hids j hj x (List.mem_cons_of_mem id0 hx)
      exact key _ _ _ h

/-- Every entry of a `cjdLoop` result either came in through the
accumulator or belongs to a queue job; a locked job carrying both
calculated datetimes contributes exactly those datetimes. -/
theorem cjdLoop_mem (db : Db) (line_id : Nat) (hpd mult : ℚ) (fuel : Nat) :
    ∀ (queue : List WorkOrder) (cur : Int) (acc res : List (Nat × Int × Int)),
      cjdLoop db line_id hpd mult fuel queue cur acc = some res →
      ∀ t ∈ res, t ∈ acc ∨ ∃ job ∈ queue, job.id = t.1 ∧
        ∀ s e : Int, job.is_locked = true → job.calculated_start_datetime = some s →
          job.calculated_end_datetime = some e → t.2.1 = s ∧ t.2.2 = e := by
  intro queue
  induction queue with
  | nil =>
      intro cur acc res h t ht
      unfold cjdLoop at h
      obtain rfl := Option.some.inj h
      exact Or.inl ht
  | cons job rest ih =>
      intro cur acc res h t ht
      unfold cjdLoop at h
      dsimp only at h
      split at h
      · split at h
        · exact absurd h (by simp)
        · rename_i cur' heq
          rcases ih cur' _ res h t ht with hin | ⟨job2, hmem, hid, himp⟩
          · rcases List.mem_append.mp hin with h1 | h1
            · exact Or.inl h1
            · have ht2 : t = (job.id, job.calculated_start_datetime.getD 0,
                  job.calculated_end_datetime.getD 0) := by simpa using h1
              subst ht2
              refine Or.inr ⟨job, List.mem_cons_self job rest, rfl, ?_⟩
              intro s e hl hcs hce
              rw [hcs, hce]
              exact ⟨rfl, rfl⟩
          · exact Or.inr ⟨job2, List.mem_cons_of_mem job hmem, hid, himp⟩
      · rename_i hcond
        split at h
        · exact absurd h (by simp)
        · rename_i start_date heq1
          split at h
          · exact absurd h (by simp)
          · rename_i end_date heq2
            split at h
            · exact absurd h (by simp)
            · rename_i cur' heq3
              rcases ih cur' _ res h t ht with hin | ⟨job2, hmem, hid, himp⟩
              · rcases List.mem_append.mp hin with h1 | h1
                · exact Or.inl h1
                · have ht2 : t = (job.id, start_date, end_date) := by simpa using h1
                  subst ht2
                  refine Or.inr ⟨job, List.mem_cons_self job rest, rfl, ?_⟩
                  intro s e hl hcs hce
                  exact absurd ⟨hl, by rw [hcs]; rfl, by rw [hce]; rfl⟩ hcond
              · exact Or.inr ⟨job2, List.mem_cons_of_mem job hmem, hid, himp⟩

theorem calculate_job_dates_mem (db : Db) (line_id : Nat) (hpd : ℚ) (fuel : Nat)
    (res : List (Nat × Int × Int)) (h : calculate_job_dates db line_id hpd fuel = some res) :
    ∀ t ∈ res, ∃ job ∈ db.jobs, job.id = t.1 ∧
      ∀ s e : Int, job.is_locked = true → job.calculated_start_datetime = some s →
        job.calculated_end_datetime = some e → t.2.1 = s ∧ t.2.2 = e := by
  intro t ht
  unfold calculate_job_dates at h
  dsimp only at h
  split at h
  · obtain rfl := Option.some.inj h
    exact absurd ht (List.not_mem_nil t)
  · split at h
    · exact absurd h (by simp)
    · rename_i cur heq
      rcases cjdLoop_mem db line_id hpd (cjdMultiplier db line_id) fuel
          (jobsOnLine db line_id) cur [] res h t ht with hin | ⟨job, hmem, hid, himp⟩
      · exact absurd hin (List.not_mem_nil t)
      · have hdb : job ∈ db.jobs := by
          unfold jobsOnLine at hmem
          rw [mem_pySorted] at hmem
          exact (List.mem_filter.mp hmem).1
        exact ⟨job, hdb, hid, himp⟩

/-- Pass 6 (`materialize`): writing a simulator entry back touches only the
job with the entry's id, and for the locked job the written scheduled dates
coincide with its current ones. -/
theorem matWrite_keeps (db : Db) (t : Nat × Int × Int) (i : Nat)
    (hts : ∀ j, db.jobs[i]? = some j → j.id = t.1 →
      j.scheduled_start_date = some t.2.1 ∧ j.scheduled_end_date = some t.2.2) :
    Keeps db.jobs (matWrite db t).jobs i := by
  unfold matWrite
  apply updateJob_keeps
  · intro j
    rfl
  · intro j hj hid
    obtain ⟨h1, h2⟩ := hts j hj hid
    simp only [lockCore]
    rw [h1, h2]

theorem matFold_keeps (i : Nat) :
    ∀ (ts : List (Nat × Int × Int)) (db : Db),
      (∀ t ∈ ts, ∀ j, db.jobs[i]? = some j → j.id = t.1 →
        j.scheduled_start_date = some t.2.1 ∧ j.scheduled_end_date = some t.2.2) →
      Keeps db.jobs (ts.foldl matWrite db).jobs i := by
  intro ts
  induction ts with
  | nil =>
      intro db _
      exact keeps_refl db.jobs i
  | cons t ts ih =>
      intro db hts
      have hstep : Keeps db.jobs (matWrite db t).jobs i :=
        matWrite_keeps db t i (hts t (List.mem_cons_self t ts))
      refine keeps_trans hstep (ih (matWrite db t) ?_)
      intro t' ht' j' hj' hid
      obtain ⟨j, hj, hcore⟩ := keeps_id_of hstep j' hj'
      rw [lockCore_eq_iff] at hcore
      obtain ⟨hida, _, _, _, _, _, _, hgss, hgse⟩ := hcore
      rw [hgss, hgse]
      exact hts t' (List.mem_cons_of_mem t ht') j hj (hida.symm.trans hid)

theorem materialize_keeps (dry : Bool) (fuel : Nat) (i : Nat) (s e : Int) :
    ∀ (lines : List SMTLine) (db db5 : Db),
      materialize dry fuel db lines = some db5 →
      (db.jobs.map WorkOrder.id).Nodup →
      (∀ j, db.jobs[i]? = some j → j.is_locked = true ∧
        j.calculated_start_datetime = some s ∧ j.calculated_end_datetime = some e ∧
        j.scheduled_start_date = some s ∧ j.scheduled_end_date = some e) →
      Keeps db.jobs db5.jobs i := by
  intro lines
  induction lines with
  | nil =>
      intro db db5 h _ _
      unfold materialize at h
      obtain rfl := Option.some.inj h
      exact keeps_refl db.jobs i
  | cons l rest ih =>
      intro db db5 h hnd hshape
      unfold materialize at h
      dsimp only at h
      split at h
      · exact absurd h (by simp)
      · rename_i job_dates heq
        have hentry : ∀ t ∈ job_dates, ∀ j, db.jobs[i]? = some j → j.id = t.1 →
            j.scheduled_start_date = some t.2.1 ∧ j.scheduled_end_date = some t.2.2 := by
          intro t ht j hj hid
          obtain ⟨job, hjmem, hjid, himp⟩ :=
            calculate_job_dates_mem db l.id 8 fuel job_dates heq t ht
          obtain rfl := nodup_id_unique hnd hj hjmem (hjid.trans hid.symm)
          obtain ⟨hl2, hcs, hce, hss, hse⟩ := hshape _ hj
          obtain ⟨h1, h2⟩ := himp s e hl2 hcs hce
          refine ⟨?_, ?_⟩
          · rw [hss, h1]
          · rw [hse, h2]
        have hstep : Keeps db.jobs (if dry then db else job_dates.foldl matWrite db).jobs i := by
          by_cases hd : dry = true
          · rw [if_pos hd]
            exact keeps_refl db.jobs i
          · rw [if_neg hd]
            exact matFold_keeps i job_dates db hentry
        refine keeps_trans hstep (ih _ db5 h ?_ ?_)
        · rw [hstep.1]
          exact hnd
        · exact keeps_shape hstep hshape

/-- Ids collected from `get_schedulable_jobs` never name the locked job. -/
theorem schedulable_id_ne (db : Db) (hnd : (db.jobs.map WorkOrder.id).Nodup)
    {i : Nat} {j : WorkOrder} (hj : db.jobs[i]? = some j) (hlock : j.is_locked = true)
    (id0 : Nat) (hid0 : id0 ∈ (get_schedulable_jobs db).map (·.id)) : j.id ≠ id0 := by
  obtain ⟨job, hjob, rfl⟩ := List.mem_map.mp hid0
  unfold get_schedulable_jobs at hjob
  obtain ⟨hmem, hpred⟩ := List.mem_filter.mp hjob
  intro hEq
  obtain rfl := nodup_id_unique hnd hj hmem hEq.symm
  simp [hlock] at hpred

/-- Ids evicted by `move_jobs_off_down_lines` never name the locked job. -/
theorem moved_id_ne (db : Db) (gl : List SMTLine) (mci : Option SMTLine)
    (hnd : (db.jobs.map WorkOrder.id).Nodup)
    {i : Nat} {j : WorkOrder} (hj : db.jobs[i]? = some j) (hlock : j.is_locked = true)
    (id0 : Nat) (hid0 : id0 ∈ (move_jobs_off_down_lines db gl mci).2) : j.id ≠ id0 := by
  unfold move_jobs_off_down_lines at hid0
  dsimp only at hid0
  rw [List.mem_flatMap] at hid0
  obtain ⟨l, _, hm⟩ := hid0
  obtain ⟨job, hjobf, rfl⟩ := List.mem_map.mp hm
  obtain ⟨hmem, hconf⟩ := List.mem_filter.mp hjobf
  intro hEq
  obtain rfl := nodup_id_unique hnd hj hmem hEq.symm
  unfold jobDowntimeConflict at hconf
  rw [hlock] at hconf
  simp at hconf

/-- Ids re-pooled by the `clear_existing` pass never name the locked job. -/
theorem cleared_id_ne (db : Db) (lines : List SMTLine)
    (hnd : (db.jobs.map WorkOrder.id).Nodup)
    {i : Nat} {j : WorkOrder} (hj : db.jobs[i]? = some j) (hlock : j.is_locked = true)
    (id0 : Nat)
    (hid0 : id0 ∈ ((db.jobs.map fun jj =>
      if lines.any (fun l => jobDowntimeConflict db l jj) then clearAssignment jj else jj).filter
        fun jj =>
          decide (jj.line_id ≠ none ∧ jj.is_complete = false ∧ jj.is_locked = false)).map
        (·.id)) :
    j.id ≠ id0 := by
  obtain ⟨job, hjobf, rfl⟩ := List.mem_map.mp hid0
  obtain ⟨hmem, hpred⟩ := List.mem_filter.mp hjobf
  obtain ⟨j0, hj0, hfa⟩ := List.mem_map.mp hmem
  intro hEq
  by_cases hc : (lines.any fun l => jobDowntimeConflict db l j0) = true
  · rw [if_pos hc] at hfa
    subst hfa
    have h1 : j0.id = j.id := by
      rw [hEq]
      rfl
    obtain rfl := nodup_id_unique hnd hj hj0 h1
    simp [clearAssignment] at hpred
  · rw [if_neg hc] at hfa
    subst hfa
    obtain rfl := nodup_id_unique hnd hj hj0 hEq.symm
    simp [hlock] at hpred

/-- The whole-run frame: a successful `optimize_for_throughput` keeps the id
column intact and, for a locked job whose scheduled dates agree with its
calculated datetimes, every protected field at its index. -/
theorem optimize_lock_frame (db : Db) (mode : String) (dry clear : Bool) (fuel : Nat)
    (i : Nat) (s e : Int)
    (hnd : (db.jobs.map WorkOrder.id).Nodup)
    (hshape : ∀ j, db.jobs[i]? = some j → j.is_locked = true ∧
      j.calculated_start_datetime = some s ∧ j.calculated_end_datetime = some e ∧
      j.scheduled_start_date = some s ∧ j.scheduled_end_date = some e) :
    ∀ p : Db × Report, optimize_for_throughput db mode dry clear fuel = some p →
      Keeps db.jobs p.1.jobs i := by
  intro p hp
  have hlock1 : ∀ j, db.jobs[i]? = some j → j.is_locked = true :=
    fun j hj => (hshape j hj).1
  have hK1 : Keeps db.jobs (move_jobs_off_down_lines db (get_general_lines db)
      (get_mci_line db)).1.jobs i :=
    move_keeps db (get_general_lines db) (get_mci_line db) i hlock1
  unfold optimize_for_throughput at hp
  dsimp only at hp
  by_cases hcl : clear = true ∧ dry = false
  · rw [if_pos hcl] at hp
    dsimp only at hp
    have hK2 : Keeps db.jobs
        ({ (move_jobs_off_down_lines db (get_general_lines db) (get_mci_line db)).1 with
          jobs := (move_jobs_off_down_lines db (get_general_lines db)
            (get_mci_line db)).1.jobs.map fun j =>
              if decide (j.line_id ≠ none ∧ j.is_complete = false ∧ j.is_locked = false) then
                clearAssignment j else j } : Db).jobs i :=
      keeps_trans hK1 (clear_map_keeps _ i (keeps_lock hK1 hlock1))
    split at hp
    · obtain rfl := Option.some.inj hp
      exact hK2
    · split at hp
      · exact absurd hp (by simp)
      · rename_i loads0 heqinit
        split at hp
        · exact absurd hp (by simp)
        · rename_i db4 loads changes heqassign
          split at hp
          · exact absurd hp (by simp)
          · rename_i db5 heqmat
            obtain rfl := Option.some.inj hp
            dsimp only
            have hK3 : Keeps db.jobs db4.jobs i := by
              refine keeps_trans (keeps_trans hK2 (calcEarliest_keeps i _ _))
                (assignLoop_keeps _ _ mode dry i _ _ loads0 [] (db4, loads, changes)
                  heqassign ?_)
              intro j' hj' id0 hid0
              rw [mem_pySorted] at hid0
              obtain ⟨j, hj, hidj⟩ :=
                keeps_id_eq (keeps_trans hK2 (calcEarliest_keeps i _ _)) j' hj'
              rw [hidj]
              rcases List.mem_append.mp hid0 with h0 | h0
              · rcases List.mem_append.mp h0 with h1 | h1
                · exact schedulable_id_ne db hnd hj (hlock1 j hj) id0 h1
                · exact moved_id_ne db _ _ hnd hj (hlock1 j hj) id0 h1
              · have h1 := h0
                rw [show (move_jobs_off_down_lines db (get_general_lines db)
                    (get_mci_line db)).1.jobs = db.jobs.map (fun jj =>
                      if ((get_general_lines db) ++
                          (match get_mci_line db with | some m => [m] | none => [])).any
                          (fun l => jobDowntimeConflict db l jj) then
                        clearAssignment jj else jj) from rfl] at h1
                exact cleared_id_ne db _ hnd hj (hlock1 j hj) id0 h1
            have hnd4 : (db4.jobs.map WorkOrder.id).Nodup := by
              rw [hK3.1]
              exact hnd
            have hK5 : Keeps db.jobs db5.jobs i :=
              keeps_trans hK3
                (materialize_keeps dry fuel i s e _ db4 db5 heqmat hnd4
                  (keeps_shape hK3 hshape))
            by_cases hd : dry = true
            · rw [if_pos hd]
              exact hK5
            · rw [if_neg hd]
              exact keeps_trans hK5 (variances_keeps db5 i)
  · rw [if_neg hcl] at hp
    dsimp only at hp
    split at hp
    · obtain rfl := Option.some.inj hp
      exact hK1
    · split at hp
      · exact absurd hp (by simp)
      · rename_i loads0 heqinit
        split at hp
        · exact absurd hp (by simp)
        · rename_i db4 loads changes heqassign
          split at hp
          · exact absurd hp (by simp)
          · rename_i db5 heqmat
            obtain rfl := Option.some.inj hp
            dsimp only
            have hK3 : Keeps db.jobs db4.jobs i := by
              refine keeps_trans (keeps_trans hK1 (calcEarliest_keeps i _ _))
                (assignLoop_keeps _ _ mode dry i _ _ loads0 [] (db4, loads, changes)
                  heqassign ?_)
              intro j' hj' id0 hid0
              rw [mem_pySorted] at hid0
              obtain ⟨j, hj, hidj⟩ :=
                keeps_id_eq (keeps_trans hK1 (calcEarliest_keeps i _ _)) j' hj'
              rw [hidj]
              rcases List.mem_append.mp hid0 with h1 | h1
              · exact schedulable_id_ne db hnd hj (hlock1 j hj) id0 h1
              · exact moved_id_ne db _ _ hnd hj (hlock1 j hj) id0 h1
            have hnd4 : (db4.jobs.map WorkOrder.id).Nodup := by
              rw [hK3.1]
              exact hnd
            have hK5 : Keeps db.jobs db5.jobs i :=
              keeps_trans hK3
                (materialize_keeps dry fuel i s e _ db4 db5 heqmat hnd4
                  (keeps_shape hK3 hshape))
            by_cases hd : dry = true
            · rw [if_pos hd]
              exact hK5
            · rw [if_neg hd]
              exact keeps_trans hK5 (variances_keeps db5 i)

/-- A locked job on line 1 carrying scheduled dates but *no* calculated
datetimes. -/
def exLockedNoDT : WorkOrder :=
  { exJob 1 4 with
      is_locked := true
      line_id := some 1
      line_position := some 1
      scheduled_start_date := some (-7)
      scheduled_end_date := some (-7) }

/-- The locked job plus one ordinary schedulable job. -/
def exDb4 : Db := ⟨[exLockedNoDT, exJob 2 4], [exLine], [], [], 0⟩

/-- The same store with the locked job carrying calculated datetimes that
agree with its scheduled dates. -/
def exLockedDT : WorkOrder :=
  { exLockedNoDT with
      calculated_start_datetime := some (-7)
      calculated_end_datetime := some (-7) }

def exDb5 : Db := ⟨[exLockedDT, exJob 2 4], [exLine], [], [], 0⟩

/-- C2, counterexample: a locked job that carries scheduled dates but no
calculated datetimes does *not* keep its dates across a run — step 6 falls
into the ordinary simulation branch and overwrites its scheduled window
(−7 → 0 here).  The "regardless of whether the job already carries computed
datetimes" half of the claim fails. -/
theorem claim_C2_counterexample :
    exDb4.jobs.map (fun j => (j.id, j.is_locked, j.scheduled_start_date)) =
      [(1, true, some (-7)), (2, false, none)] ∧
    (optimize_for_throughput exDb4 "balanced" false false 20).map
        (fun p => p.1.jobs.map fun j => (j.id, j.is_locked, j.scheduled_start_date)) =
      some [(1, true, some 0), (2, false, some 1)] := by
  constructor
  · with_unfolding_all decide
  · with_unfolding_all decide

/-- C2 (amended): in a store with duplicate-free job ids, a locked job that
carries both calculated datetimes, and whose scheduled dates agree with
them, keeps resource, queue position, calculated datetimes and scheduled
dates (and its id and flags) across every terminating
`optimize_for_throughput` run, for every mode and every `dry_run` /
`clear_existing` combination.  Without calculated datetimes (or with
scheduled dates that disagree with them) step 6 rewrites the scheduled
window — see the counterexample. -/
theorem claim_C2_amended (db : Db) (mode : String) (dry_run clear_existing : Bool)
    (fuel : Nat) (i : Nat) (s e : Int)
    (hnd : (db.jobs.map WorkOrder.id).Nodup)
    (hi : i < db.jobs.length)
    (hlock : db.jobs[i].is_locked = true)
    (hcs : db.jobs[i].calculated_start_datetime = some s)
    (hce : db.jobs[i].calculated_end_datetime = some e)
    (hss : db.jobs[i].scheduled_start_date = some s)
    (hse : db.jobs[i].scheduled_end_date = some e) :
    (optimize_for_throughput db mode dry_run clear_existing fuel).map
        (fun p => p.1.jobs[i]?.map lockCore) =
      (optimize_for_throughput db mode dry_run clear_existing fuel).map
        (fun _ => some (lockCore db.jobs[i])) := by
  have hshape : ∀ j, db.jobs[i]? = some j → j.is_locked = true ∧
      j.calculated_start_datetime = some s ∧ j.calculated_end_datetime = some e ∧
      j.scheduled_start_date = some s ∧ j.scheduled_end_date = some e := by
    intro j hj
    rw [List.getElem?_eq_getElem hi] at hj
    obtain rfl := Option.some.inj hj
    exact ⟨hlock, hcs, hce, hss, hse⟩
  cases ho : optimize_for_throughput db mode dry_run clear_existing fuel with
  | none => rfl
  | some p =>
      have hK := optimize_lock_frame db mode dry_run clear_existing fuel i s e
        hnd hshape p ho
      simp only [Option.map_some']
      rw [hK.2, List.getElem?_eq_getElem hi]
      rfl

/-- C2 witness: the locked-with-datetimes store — across a full live run the
locked job's protected fields are untouched (the unlocked companion does get
scheduled). -/
theorem claim_C2_witness :
    (optimize_for_throughput exDb5 "balanced" false false 20).map
        (fun p => p.1.jobs[0]?.map lockCore) =
      (optimize_for_throughput exDb5 "balanced" false false 20).map
        (fun _ => some (lockCore exDb5.jobs[0])) :=
  claim_C2_amended exDb5 "balanced" false false 20 0 (-7) (-7)
    (by with_unfolding_all decide) (by with_unfolding_all decide)
    (by with_unfolding_all decide) (by with_unfolding_all decide)
    (by with_unfolding_all decide) (by with_unfolding_all decide)
    (by with_unfolding_all decide)

end SMT
